import Mathlib

/-!
Verification of the ASSETS schedule-summary generator
(`src/schedule_script/generate_schedule_summary_table.py`).

Python strings are embedded as `List Char` (`Str`).  The relevant string,
time and date routines of the script are translated function by function;
regular expressions are translated to the explicit scanning they perform on
the (ASCII) inputs the script handles, as documented at each definition.
-/

abbrev Str := List Char

/-- Coerce a Lean string literal to the `List Char` representation. -/
def str (s : String) : Str := s.data

/-- Python `\s` / `str.strip()` whitespace (ASCII range, which is all the
script ever sees). -/
def isWs (c : Char) : Bool :=
  c = ' ' ∨ c = '\t' ∨ c = '\n' ∨ c = '\x0d' ∨ c = '\x0b' ∨ c = '\x0c'

/-- Python `str.strip()` (no argument): drop leading and trailing whitespace. -/
def trim (s : Str) : Str :=
  ((s.dropWhile isWs).reverse.dropWhile isWs).reverse

/-- Python `str.lower()` restricted to ASCII (the script only lowercases
ASCII header/session text). -/
def lowerStr (s : Str) : Str := s.map Char.toLower

/-- Python `str.upper()` restricted to ASCII. -/
def upperStr (s : Str) : Str := s.map Char.toUpper

/-- Value of an ASCII digit character. -/
def dval (c : Char) : Nat := c.toNat - 48

-- ---------------------------------------------------------------------------
-- Decimal rendering of naturals (Python `str(n)` / `f"{n:02d}"`).
-- ---------------------------------------------------------------------------

/-- Little-endian decimal digits of `n`, with structural fuel so that the
kernel can evaluate it. -/
def toDigitsRev : Nat → Nat → List Nat
  | 0, _ => []
  | fuel+1, n => if n = 0 then [] else n % 10 :: toDigitsRev fuel (n / 10)

/-- Python `str(n)` for a natural number. -/
def natRepr (n : Nat) : Str :=
  if n = 0 then ['0'] else ((toDigitsRev n n).map Nat.digitChar).reverse

/-- Python `f"{n:02d}"`: zero-pad to width 2. -/
def pad2 (n : Nat) : Str :=
  if n < 10 then '0' :: natRepr n else natRepr n

/-- Python `sep.join(parts)`. -/
def joinSep (sep : Str) : List Str → Str
  | [] => []
  | [x] => x
  | x :: xs => x ++ sep ++ joinSep sep xs

-- ---------------------------------------------------------------------------
-- `slugify_ascii` (lines 34-42 of the script)
-- ---------------------------------------------------------------------------

/-- Characters kept by the regex class `[a-z0-9]`. -/
def isKeep (c : Char) : Bool :=
  (97 ≤ c.toNat ∧ c.toNat ≤ 122) ∨ (48 ≤ c.toNat ∧ c.toNat ≤ 57)

/-- Worker for `re.sub(r"[^keep]+", rep, s)`: every maximal run of characters
failing `keep` is replaced by the single character `rep`.  `prevBad` records
whether the previous character belonged to a bad run. -/
def subRunsGo (keep : Char → Bool) (rep : Char) : Bool → Str → Str
  | _, [] => []
  | prevBad, c :: rest =>
    if keep c then c :: subRunsGo keep rep false rest
    else if prevBad then subRunsGo keep rep true rest
    else rep :: subRunsGo keep rep true rest

/-- Python `re.sub(r"[^...]+", rep, s)` with a one-character class complement. -/
def subRuns (keep : Char → Bool) (rep : Char) (s : Str) : Str :=
  subRunsGo keep rep false s

/-- Python `str.strip(ch)`: drop all leading and trailing copies of `ch`. -/
def stripChar (ch : Char) (s : Str) : Str :=
  ((s.dropWhile (· = ch)).reverse.dropWhile (· = ch)).reverse

/-- Worker for `re.sub(r"ch{2,}", ch, s)`: collapse runs of two or more
copies of `ch` into one (a run of one is already one). -/
def collapseGo (ch : Char) : Bool → Str → Str
  | _, [] => []
  | prev, c :: rest =>
    if c = ch then
      (if prev then collapseGo ch true rest else c :: collapseGo ch true rest)
    else c :: collapseGo ch false rest

def collapse2 (ch : Char) (s : Str) : Str := collapseGo ch false s

/-- `slugify_ascii` from the script.  The NFKD-normalize + `encode("ascii",
"ignore")` step is modelled as dropping non-ASCII characters (it is the
identity on ASCII text, which is all that reaches this function in the
claims; in particular it is the identity on every output of the function
itself, which is what the idempotence claim depends on). -/
def slugify_ascii (s : Str) : Str :=
  if s = [] then []
  else
    collapse2 '-' (stripChar '-'
      (subRuns isKeep '-' ((s.filter (fun c => c.toNat < 128)).map Char.toLower)))

-- ---------------------------------------------------------------------------
-- Shape of slugs, and idempotence of `slugify_ascii` (claim C10)
-- ---------------------------------------------------------------------------

/-- Does the head of the string (if any) satisfy `p`? -/
def headSat (p : Char → Bool) : Str → Bool
  | [] => true
  | c :: _ => p c

/-- Does the last character (if any) satisfy `p`? -/
def lastSat (p : Char → Bool) (s : Str) : Bool := headSat p s.reverse

/-- No two adjacent hyphens. -/
def noDD : Str → Bool
  | [] => true
  | c :: rest => (decide (c ≠ '-') || headSat (fun d => decide (d ≠ '-')) rest) && noDD rest

/-- The output shape claimed for `slugify_ascii`: only lowercase ASCII
letters, digits and single interior hyphens, no leading or trailing hyphen. -/
def goodSlug (s : Str) : Bool :=
  s.all (fun c => isKeep c || decide (c = '-')) && noDD s &&
    headSat (fun c => decide (c ≠ '-')) s && lastSat (fun c => decide (c ≠ '-')) s

lemma mem_subRunsGo {keep : Char → Bool} {rep : Char} :
    ∀ (b : Bool) (s : Str) (c : Char), c ∈ subRunsGo keep rep b s →
      keep c = true ∨ c = rep := by
  intro b s
  induction s generalizing b with
  | nil => intro c h; simp [subRunsGo] at h
  | cons a rest ih =>
    intro c h
    by_cases hk : keep a
    · simp only [subRunsGo, hk, if_pos] at h
      rcases List.mem_cons.mp h with h | h
      · exact Or.inl (h ▸ hk)
      · exact ih false c h
    · simp only [subRunsGo, hk] at h
      cases b with
      | true => simpa using ih true c (by simpa using h)
      | false =>
        rcases List.mem_cons.mp (by simpa using h) with h | h
        · exact Or.inr h
        · exact ih true c h

lemma headSat_mono {p q : Char → Bool} (hpq : ∀ c, p c = true → q c = true) :
    ∀ s, headSat p s = true → headSat q s = true := by
  intro s h
  cases s with
  | nil => rfl
  | cons c rest => exact hpq c h

lemma subRunsGo_noDD {keep : Char → Bool} (hk : keep '-' = false) :
    ∀ s : Str, (noDD (subRunsGo keep '-' false s) = true ∧
                noDD (subRunsGo keep '-' true s) = true ∧
                headSat keep (subRunsGo keep '-' true s) = true) := by
  intro s
  induction s with
  | nil => exact ⟨rfl, rfl, rfl⟩
  | cons a rest ih =>
    obtain ⟨ihf, iht, ihh⟩ := ih
    by_cases ha : keep a
    · have hane : decide (a ≠ '-') = true := by
        refine decide_eq_true ?_
        intro heq; rw [heq] at ha; simp [hk] at ha
      constructor
      · simp only [subRunsGo, ha, if_pos, noDD, hane, Bool.true_or, Bool.true_and]
        exact ihf
      constructor
      · simp only [subRunsGo, ha, if_pos, noDD, hane, Bool.true_or, Bool.true_and]
        exact ihf
      · simp only [subRunsGo, ha, if_pos, headSat]
    · have hh2 : headSat (fun d => decide (d ≠ '-')) (subRunsGo keep '-' true rest) = true := by
        refine headSat_mono (fun c hc => ?_) _ ihh
        refine decide_eq_true ?_
        intro heq; rw [heq] at hc; simp [hk] at hc
      refine ⟨?_, ?_, ?_⟩
      · simp only [subRunsGo, ha, if_neg, Bool.false_eq_true, if_false, noDD, hh2,
          Bool.or_true, Bool.true_and]
        exact iht
      · simp only [subRunsGo, ha, Bool.false_eq_true, if_false]
        exact iht
      · simp only [subRunsGo, ha, Bool.false_eq_true, if_false]
        exact ihh

lemma headSat_dropWhile (p : Char → Bool) :
    ∀ s : Str, headSat (fun c => ! p c) (s.dropWhile p) = true := by
  intro s
  induction s with
  | nil => rfl
  | cons c rest ih =>
    by_cases hc : p c
    · simpa [List.dropWhile, hc] using ih
    · simp [List.dropWhile, hc, headSat]

lemma lastSat_cons (p : Char → Bool) (c : Char) (s : Str) (hs : s ≠ []) :
    lastSat p (c :: s) = lastSat p s := by
  unfold lastSat
  rw [List.reverse_cons]
  cases hrev : s.reverse with
  | nil => exact absurd (by simpa using hrev) hs
  | cons d t => simp [headSat]

lemma lastSat_dropWhile (p q : Char → Bool) :
    ∀ s : Str, lastSat p s = true → lastSat p (s.dropWhile q) = true := by
  intro s
  induction s with
  | nil => intro _; rfl
  | cons c rest ih =>
    intro h
    by_cases hc : q c
    · rw [List.dropWhile_cons_of_pos hc]
      refine ih ?_
      rcases rest with _ | ⟨d, t⟩
      · rfl
      · rwa [lastSat_cons p c _ (by simp)] at h
    · rwa [List.dropWhile_cons_of_neg hc]

lemma lastSat_reverse (p : Char → Bool) (s : Str) :
    lastSat p s.reverse = headSat p s := by
  unfold lastSat; rw [List.reverse_reverse]

lemma mem_stripChar {ch : Char} {s : Str} {c : Char} (h : c ∈ stripChar ch s) :
    c ∈ s := by
  unfold stripChar at h
  rw [List.mem_reverse] at h
  have h1 := (List.dropWhile_sublist (l := (s.dropWhile (· = ch)).reverse)
    (fun c => decide (c = ch))).mem h
  rw [List.mem_reverse] at h1
  exact (List.dropWhile_sublist (l := s) (fun c => decide (c = ch))).mem h1

lemma stripChar_headSat (ch : Char) (s : Str) :
    headSat (fun c => decide (c ≠ ch)) (stripChar ch s) = true := by
  show lastSat (fun c => decide (c ≠ ch))
      ((s.dropWhile (· = ch)).reverse.dropWhile (· = ch)) = true
  refine lastSat_dropWhile _ _ _ ?_
  rw [lastSat_reverse]
  have := headSat_dropWhile (fun c => decide (c = ch)) s
  refine headSat_mono (fun c hc => ?_) _ this
  simpa using hc

lemma stripChar_lastSat (ch : Char) (s : Str) :
    lastSat (fun c => decide (c ≠ ch)) (stripChar ch s) = true := by
  unfold stripChar
  rw [lastSat_reverse]
  have := headSat_dropWhile (fun c => decide (c = ch)) (s.dropWhile (· = ch)).reverse
  refine headSat_mono (fun c hc => ?_) _ this
  simpa using hc

lemma mem_collapseGo {ch : Char} :
    ∀ (b : Bool) (s : Str) (c : Char), c ∈ collapseGo ch b s → c ∈ s := by
  intro b s
  induction s generalizing b with
  | nil => intro c h; simp [collapseGo] at h
  | cons a rest ih =>
    intro c h
    by_cases ha : a = ch
    · cases b with
      | true =>
        simp only [collapseGo, ha, if_pos, if_true] at h
        exact List.mem_cons_of_mem _ (ih true c (by simpa [ha] using h))
      | false =>
        simp only [collapseGo, ha, if_pos, if_false] at h
        rcases List.mem_cons.mp (by simpa [ha] using h) with h | h
        · simp [h, ha]
        · exact List.mem_cons_of_mem _ (ih true c h)
    · simp only [collapseGo, ha, if_neg, ite_false] at h
      rcases List.mem_cons.mp (by simpa [ha] using h) with h | h
      · simp [h]
      · exact List.mem_cons_of_mem _ (ih false c h)

lemma collapseGo_noDD :
    ∀ s : Str, (noDD (collapseGo '-' false s) = true ∧
                noDD (collapseGo '-' true s) = true ∧
                headSat (fun d => decide (d ≠ '-')) (collapseGo '-' true s) = true) := by
  intro s
  induction s with
  | nil => exact ⟨rfl, rfl, rfl⟩
  | cons a rest ih =>
    obtain ⟨ihf, iht, ihh⟩ := ih
    by_cases ha : a = '-'
    · refine ⟨?_, ?_, ?_⟩
      · simp only [collapseGo, ha, if_pos, if_false, noDD, ihh, Bool.or_true, Bool.true_and]
        exact iht
      · simp only [collapseGo, ha, if_pos, if_true]
        exact iht
      · simp only [collapseGo, ha, if_pos, if_true]
        exact ihh
    · have hane : decide (a ≠ '-') = true := by simpa using ha
      refine ⟨?_, ?_, ?_⟩
      · simp only [collapseGo, ha, if_neg, ite_false, noDD, hane, Bool.true_or, Bool.true_and]
        exact ihf
      · simp only [collapseGo, ha, if_neg, ite_false, noDD, hane, Bool.true_or, Bool.true_and]
        exact ihf
      · simp only [collapseGo, ha, if_neg, ite_false, headSat]
        exact hane

lemma collapseGo_headSat {ch : Char} {p : Char → Bool} :
    ∀ s : Str, headSat p s = true → headSat p (collapseGo ch false s) = true := by
  intro s h
  cases s with
  | nil => rfl
  | cons a rest =>
    by_cases ha : a = ch
    · simpa [collapseGo, ha, headSat] using h
    · simpa [collapseGo, ha, headSat] using h

lemma collapseGo_lastSat {ch : Char} :
    ∀ (b : Bool) (s : Str), s ≠ [] → lastSat (fun c => decide (c ≠ ch)) s = true →
      (collapseGo ch b s ≠ [] ∧
        lastSat (fun c => decide (c ≠ ch)) (collapseGo ch b s) = true) := by
  intro b s
  induction s generalizing b with
  | nil => intro h; exact absurd rfl h
  | cons a rest ih =>
    intro _ hlast
    rcases Decidable.em (rest = []) with hrest | hrest
    · subst hrest
      have hane : a ≠ ch := by simpa [lastSat, headSat] using hlast
      cases b with
      | true => simpa [collapseGo, hane, lastSat, headSat] using hane
      | false => simpa [collapseGo, hane, lastSat, headSat] using hane
    · have hlast' : lastSat (fun c => decide (c ≠ ch)) rest = true := by
        rwa [lastSat_cons _ a rest hrest] at hlast
      by_cases ha : a = ch
      · cases b with
        | true =>
          simp only [collapseGo, ha, if_pos, if_true]
          exact ih true hrest hlast'
        | false =>
          obtain ⟨hne, hl⟩ := ih true hrest hlast'
          have hstep : collapseGo ch false (a :: rest) = ch :: collapseGo ch true rest := by
            simp [collapseGo, ha]
          rw [hstep]
          refine ⟨by simp, ?_⟩
          rw [lastSat_cons _ ch _ hne]
          exact hl
      · obtain ⟨hne, hl⟩ := ih false hrest hlast'
        have hstep : collapseGo ch b (a :: rest) = a :: collapseGo ch false rest := by
          cases b <;> simp [collapseGo, ha]
        rw [hstep]
        refine ⟨by simp, ?_⟩
        rw [lastSat_cons _ a _ hne]
        exact hl

lemma toLower_fixed {c : Char} (h : isKeep c = true ∨ c = '-') :
    Char.toLower c = c := by
  have hn : ¬ (c.toNat ≥ 65 ∧ c.toNat ≤ 90) := by
    rcases h with h | h
    · unfold isKeep at h
      rcases (by simpa using h : (97 ≤ c.toNat ∧ c.toNat ≤ 122) ∨
          (48 ≤ c.toNat ∧ c.toNat ≤ 57)) with ⟨h1, _⟩ | ⟨_, h2⟩ <;> omega
    · subst h; decide
  simp [Char.toLower, hn]

lemma subRunsGo_fixed :
    ∀ s : Str, (∀ c ∈ s, isKeep c = true ∨ c = '-') → noDD s = true →
      (subRunsGo isKeep '-' false s = s ∧
        (headSat (fun d => decide (d ≠ '-')) s = true → subRunsGo isKeep '-' true s = s)) := by
  intro s
  induction s with
  | nil => intro _ _; exact ⟨rfl, fun _ => rfl⟩
  | cons a rest ih =>
    intro hall hdd
    have hdd2 := hdd
    unfold noDD at hdd2
    rw [Bool.and_eq_true, Bool.or_eq_true] at hdd2
    have hdd' : noDD rest = true := hdd2.2
    have hheadrest : decide (a ≠ '-') = true ∨
        headSat (fun d => decide (d ≠ '-')) rest = true := hdd2.1
    have hall' : ∀ c ∈ rest, isKeep c = true ∨ c = '-' :=
      fun c hc => hall c (List.mem_cons_of_mem _ hc)
    obtain ⟨ihf, iht⟩ := ih hall' hdd'
    rcases hall a (List.mem_cons_self a rest) with ha | ha
    · constructor
      · simp only [subRunsGo, ha, if_pos, ihf]
      · intro _; simp only [subRunsGo, ha, if_pos, ihf]
    · subst ha
      have hrest_head : headSat (fun d => decide (d ≠ '-')) rest = true := by
        rcases hheadrest with h | h
        · simp at h
        · exact h
      have hkeepdash : isKeep '-' = false := by decide
      constructor
      · have htr : subRunsGo isKeep '-' true rest = rest := iht hrest_head
        simp only [subRunsGo, hkeepdash, Bool.false_eq_true, if_false, htr]
      · intro hh
        simp [headSat] at hh

lemma dropWhile_fixed {p : Char → Bool} {s : Str}
    (h : headSat (fun c => ! p c) s = true) : s.dropWhile p = s := by
  cases s with
  | nil => rfl
  | cons c rest =>
    have : p c = false := by simpa [headSat] using h
    simp [List.dropWhile, this]

lemma stripChar_fixed {ch : Char} {s : Str}
    (hh : headSat (fun c => decide (c ≠ ch)) s = true)
    (hl : lastSat (fun c => decide (c ≠ ch)) s = true) :
    stripChar ch s = s := by
  unfold stripChar
  rw [dropWhile_fixed (p := fun c => decide (c = ch))
    (headSat_mono (fun c hc => by simpa using hc) s hh)]
  rw [dropWhile_fixed (p := fun c => decide (c = ch))
    (headSat_mono (fun c hc => by simpa using hc) s.reverse hl)]
  exact List.reverse_reverse s

lemma collapseGo_fixed :
    ∀ s : Str, noDD s = true → (collapseGo '-' false s = s ∧
      (headSat (fun d => decide (d ≠ '-')) s = true → collapseGo '-' true s = s)) := by
  intro s
  induction s with
  | nil => intro _; exact ⟨rfl, fun _ => rfl⟩
  | cons a rest ih =>
    intro hdd
    have hdd2 := hdd
    unfold noDD at hdd2
    rw [Bool.and_eq_true, Bool.or_eq_true] at hdd2
    obtain ⟨ihf, iht⟩ := ih hdd2.2
    by_cases ha : a = '-'
    · subst ha
      have hrest_head : headSat (fun d => decide (d ≠ '-')) rest = true := by
        rcases hdd2.1 with h | h
        · simp at h
        · exact h
      constructor
      · have : collapseGo '-' true rest = rest := iht hrest_head
        simp [collapseGo, this]
      · intro hh
        simp [headSat] at hh
    · constructor
      · simp [collapseGo, ha, ihf]
      · intro _; simp [collapseGo, ha, ihf]

/-- Claim C10.  `slugify_ascii` is idempotent and its output consists only of
lowercase ASCII letters, digits and single interior hyphens, with no leading
or trailing hyphen. -/
theorem slugify_ascii_idempotent_and_shape (s : Str) :
    slugify_ascii (slugify_ascii s) = slugify_ascii s ∧
      goodSlug (slugify_ascii s) = true := by
  have hkeepdash : isKeep '-' = false := by decide
  -- Shape of any output of `slugify_ascii`.
  have shape : ∀ t : Str, goodSlug (slugify_ascii t) = true := by
    intro t
    by_cases ht : t = []
    · subst ht; decide
    · unfold slugify_ascii
      rw [if_neg ht]
      set s1 := (t.filter (fun c => c.toNat < 128)).map Char.toLower with hs1
      set s2 := subRuns isKeep '-' s1 with hs2
      set s3 := stripChar '-' s2 with hs3
      unfold goodSlug
      have hchars : ∀ c ∈ collapse2 '-' s3, isKeep c = true ∨ c = '-' := by
        intro c hc
        have hc3 : c ∈ s3 := mem_collapseGo false s3 c hc
        have hc2 : c ∈ s2 := mem_stripChar hc3
        exact mem_subRunsGo false s1 c hc2
      have h1 : (collapse2 '-' s3).all (fun c => isKeep c || decide (c = '-')) = true := by
        rw [List.all_eq_true]
        intro c hc
        rcases hchars c hc with h | h
        · simp [h]
        · simp [h]
      have h2 : noDD (collapse2 '-' s3) = true := (collapseGo_noDD s3).1
      have h3 : headSat (fun c => decide (c ≠ '-')) (collapse2 '-' s3) = true :=
        collapseGo_headSat s3 (stripChar_headSat '-' s2)
      have h4 : lastSat (fun c => decide (c ≠ '-')) (collapse2 '-' s3) = true := by
        by_cases h3e : s3 = []
        · rw [h3e]; rfl
        · exact (collapseGo_lastSat false s3 h3e (stripChar_lastSat '-' s2)).2
      rw [h1, h2, h3, h4]
      rfl
  -- `slugify_ascii` fixes every string of that shape.
  have fixed : ∀ t : Str, goodSlug t = true → slugify_ascii t = t := by
    intro t hg
    unfold goodSlug at hg
    rw [Bool.and_eq_true, Bool.and_eq_true, Bool.and_eq_true] at hg
    obtain ⟨⟨⟨hall, hdd⟩, hhead⟩, hlast⟩ := hg
    rw [List.all_eq_true] at hall
    have hall' : ∀ c ∈ t, isKeep c = true ∨ c = '-' := by
      intro c hc
      have hc' := hall c hc
      rw [Bool.or_eq_true] at hc'
      rcases hc' with h | h
      · exact Or.inl h
      · exact Or.inr (by simpa using h)
    by_cases ht : t = []
    · subst ht; rfl
    · unfold slugify_ascii
      rw [if_neg ht]
      have hfilter : t.filter (fun c => c.toNat < 128) = t := by
        rw [List.filter_eq_self]
        intro c hc
        rcases hall' c hc with h | h
        · unfold isKeep at h
          refine decide_eq_true ?_
          rcases (by simpa using h : (97 ≤ c.toNat ∧ c.toNat ≤ 122) ∨
              (48 ≤ c.toNat ∧ c.toNat ≤ 57)) with ⟨_, h2⟩ | ⟨_, h2⟩ <;> omega
        · subst h; decide
      have hmap : t.map Char.toLower = t := by
        conv_rhs => rw [← List.map_id t]
        exact List.map_congr_left (fun c hc => toLower_fixed (hall' c hc))
      rw [hfilter, hmap]
      rw [show subRuns isKeep '-' t = t from (subRunsGo_fixed t hall' hdd).1]
      rw [stripChar_fixed hhead hlast]
      exact (collapseGo_fixed t hdd).1
  exact ⟨fixed _ (shape s), shape s⟩

-- ---------------------------------------------------------------------------
-- Properties of `natRepr` / `pad2`
-- ---------------------------------------------------------------------------

/-- Value of a little-endian digit list (inverse of `toDigitsRev`). -/
def ofDigitsRev : List Nat → Nat
  | [] => 0
  | d :: ds => d + 10 * ofDigitsRev ds

lemma toDigitsRev_val : ∀ fuel n, n ≤ fuel → ofDigitsRev (toDigitsRev fuel n) = n := by
  intro fuel
  induction fuel with
  | zero => intro n h; interval_cases n; rfl
  | succ fuel ih =>
    intro n h
    by_cases hn : n = 0
    · subst hn; simp [toDigitsRev, ofDigitsRev]
    · have hlt : n / 10 ≤ fuel := by
        have : n / 10 < n := Nat.div_lt_self (Nat.pos_of_ne_zero hn) (by omega)
        omega
      simp only [toDigitsRev, hn, if_false, ofDigitsRev, ih (n / 10) hlt]
      omega

lemma toDigitsRev_lt10 : ∀ fuel n d, d ∈ toDigitsRev fuel n → d < 10 := by
  intro fuel
  induction fuel with
  | zero => intro n d h; simp [toDigitsRev] at h
  | succ fuel ih =>
    intro n d h
    by_cases hn : n = 0
    · subst hn; simp [toDigitsRev] at h
    · simp only [toDigitsRev, hn, if_false] at h
      rcases List.mem_cons.mp h with h | h
      · subst h; exact Nat.mod_lt _ (by omega)
      · exact ih _ _ h

lemma toDigitsRev_last : ∀ fuel n, 1 ≤ n → n ≤ fuel →
    ∃ l d, toDigitsRev fuel n = l ++ [d] ∧ 1 ≤ d ∧ d < 10 := by
  intro fuel
  induction fuel with
  | zero => intro n h1 h2; omega
  | succ fuel ih =>
    intro n h1 h2
    have hn : n ≠ 0 := by omega
    by_cases hsmall : n < 10
    · refine ⟨[], n % 10, ?_, ?_, ?_⟩
      · simp only [toDigitsRev, hn, if_false]
        have : n / 10 = 0 := Nat.div_eq_of_lt hsmall
        simp [toDigitsRev, this]
        rcases fuel with _ | fuel
        · rfl
        · simp [toDigitsRev]
      · omega
      · exact Nat.mod_lt _ (by omega)
    · have h10 : 1 ≤ n / 10 := (Nat.one_le_div_iff (by omega)).mpr (by omega)
      have hle : n / 10 ≤ fuel := by
        have : n / 10 < n := Nat.div_lt_self (by omega) (by omega)
        omega
      obtain ⟨l, d, hld, hd1, hd2⟩ := ih (n / 10) h10 hle
      refine ⟨n % 10 :: l, d, ?_, hd1, hd2⟩
      simp [toDigitsRev, hn, hld]

lemma digitChar_inj_lt10 :
    ∀ a, a < 10 → ∀ b, b < 10 → Nat.digitChar a = Nat.digitChar b → a = b := by decide

lemma digitChar_ne_zero : ∀ d, 1 ≤ d → d < 10 → Nat.digitChar d ≠ '0' := by decide

lemma digitChar_isDigit : ∀ d, d < 10 → (Nat.digitChar d).isDigit = true := by decide

lemma map_digitChar_inj : ∀ l1 l2 : List Nat, (∀ d ∈ l1, d < 10) → (∀ d ∈ l2, d < 10) →
    l1.map Nat.digitChar = l2.map Nat.digitChar → l1 = l2 := by
  intro l1
  induction l1 with
  | nil => intro l2 _ _ h; cases l2 with
    | nil => rfl
    | cons b bs => simp at h
  | cons a as ih =>
    intro l2 h1 h2 h
    cases l2 with
    | nil => simp at h
    | cons b bs =>
      simp only [List.map_cons, List.cons.injEq] at h
      have ha := h1 a (List.mem_cons_self _ _)
      have hb := h2 b (List.mem_cons_self _ _)
      have : a = b := digitChar_inj_lt10 a ha b hb h.1
      subst this
      rw [ih bs (fun d hd => h1 d (List.mem_cons_of_mem _ hd))
        (fun d hd => h2 d (List.mem_cons_of_mem _ hd)) h.2]

lemma natRepr_head_of_pos (n : Nat) (hn : 1 ≤ n) :
    ∃ d tail, natRepr n = Nat.digitChar d :: tail ∧ 1 ≤ d ∧ d < 10 := by
  obtain ⟨l, d, hld, hd1, hd2⟩ := toDigitsRev_last n n hn (le_refl n)
  refine ⟨d, (l.map Nat.digitChar).reverse, ?_, hd1, hd2⟩
  unfold natRepr
  rw [if_neg (by omega), hld]
  simp

lemma natRepr_inj : ∀ m n : Nat, natRepr m = natRepr n → m = n := by
  have key : ∀ m n : Nat, 1 ≤ m → 1 ≤ n → natRepr m = natRepr n → m = n := by
    intro m n hm hn h
    unfold natRepr at h
    rw [if_neg (by omega), if_neg (by omega)] at h
    have h' := List.reverse_injective h
    have := map_digitChar_inj _ _ (fun d hd => toDigitsRev_lt10 m m d hd)
      (fun d hd => toDigitsRev_lt10 n n d hd) h'
    calc m = ofDigitsRev (toDigitsRev m m) := (toDigitsRev_val m m (le_refl m)).symm
      _ = ofDigitsRev (toDigitsRev n n) := by rw [this]
      _ = n := toDigitsRev_val n n (le_refl n)
  intro m n h
  rcases Nat.eq_zero_or_pos m with hm | hm <;> rcases Nat.eq_zero_or_pos n with hn | hn
  · omega
  · subst hm
    obtain ⟨d, tail, hrep, hd1, hd2⟩ := natRepr_head_of_pos n hn
    rw [hrep] at h
    have : natRepr 0 = ['0'] := rfl
    rw [this] at h
    exact absurd (List.head_eq_of_cons_eq h).symm (digitChar_ne_zero d hd1 hd2)
  · subst hn
    obtain ⟨d, tail, hrep, hd1, hd2⟩ := natRepr_head_of_pos m hm
    rw [hrep] at h
    have : natRepr 0 = ['0'] := rfl
    rw [this] at h
    exact absurd (List.head_eq_of_cons_eq h) (digitChar_ne_zero d hd1 hd2)
  · exact key m n hm hn h

lemma natRepr_ne_nil (n : Nat) : natRepr n ≠ [] := by
  rcases Nat.eq_zero_or_pos n with hn | hn
  · subst hn; simp [natRepr]
  · obtain ⟨d, tail, hrep, _, _⟩ := natRepr_head_of_pos n hn
    rw [hrep]; simp

lemma natRepr_isDigit (n : Nat) : ∀ c ∈ natRepr n, c.isDigit = true := by
  intro c hc
  unfold natRepr at hc
  by_cases hn : n = 0
  · rw [hn] at hc; simp at hc; subst hc; decide
  · rw [if_neg hn] at hc
    rw [List.mem_reverse, List.mem_map] at hc
    obtain ⟨d, hd, hdc⟩ := hc
    rw [← hdc]
    exact digitChar_isDigit d (toDigitsRev_lt10 n n d hd)

lemma pad2_isDigit (n : Nat) : ∀ c ∈ pad2 n, c.isDigit = true := by
  intro c hc
  unfold pad2 at hc
  by_cases hn : n < 10
  · rw [if_pos hn] at hc
    rcases List.mem_cons.mp hc with h | h
    · subst h; decide
    · exact natRepr_isDigit n c h
  · rw [if_neg hn] at hc
    exact natRepr_isDigit n c hc

lemma pad2_inj : ∀ m n : Nat, pad2 m = pad2 n → m = n := by
  intro m n h
  unfold pad2 at h
  by_cases hm : m < 10 <;> by_cases hn : n < 10
  · rw [if_pos hm, if_pos hn] at h
    exact natRepr_inj m n (List.tail_eq_of_cons_eq h)
  · rw [if_pos hm, if_neg hn] at h
    obtain ⟨d, tail, hrep, hd1, hd2⟩ := natRepr_head_of_pos n (by omega)
    rw [hrep] at h
    exact absurd (List.head_eq_of_cons_eq h).symm (digitChar_ne_zero d hd1 hd2)
  · rw [if_neg hm, if_pos hn] at h
    obtain ⟨d, tail, hrep, hd1, hd2⟩ := natRepr_head_of_pos m (by omega)
    rw [hrep] at h
    exact absurd (List.head_eq_of_cons_eq h) (digitChar_ne_zero d hd1 hd2)
  · rw [if_neg hm, if_neg hn] at h
    exact natRepr_inj m n h

-- ---------------------------------------------------------------------------
-- Time parsing (script lines 44-150)
-- ---------------------------------------------------------------------------

/-- AM / PM marker. -/
inductive Mer
  | am
  | pm
deriving DecidableEq

/-- `[Mm]`. -/
def isM (c : Char) : Bool := c = 'M' ∨ c = 'm'

/-- `[AaPp]`. -/
def isAP (c : Char) : Bool := c = 'A' ∨ c = 'a' ∨ c = 'P' ∨ c = 'p'

/-- Tail of the lowercased meridiem group `[ap]\.?m\.?` after its first
letter: `m`, `m.`, `.m` or `.m.`. -/
def pMerTail : Str → Bool
  | ['m'] => true
  | ['m', '.'] => true
  | ['.', 'm'] => true
  | ['.', 'm', '.'] => true
  | _ => false

/-- `\s*([ap]\.?m\.?)?$` on an already-lowercased string: the remainder after
the digits of `_parse_single_time_to_24h_token`s regex. -/
def pTailAmPm (s : Str) : Option (Option Mer) :=
  match s.dropWhile isWs with
  | [] => some none
  | c :: rest =>
    if c = 'a' then (if pMerTail rest then some (some Mer.am) else none)
    else if c = 'p' then (if pMerTail rest then some (some Mer.pm) else none)
    else none

/-- `(?::(\d{2}))?\s*([ap]\.?m\.?)?$` after the hour digits; the minute
defaults to 0 when the colon group is absent (Python `m.group(2) or "00"`).
The `orElse` mirrors the regex backtracking out of the optional colon
group. -/
def parseAfterHH (hh : Nat) (s : Str) : Option (Nat × Nat × Option Mer) :=
  (match s with
   | ':' :: m1 :: m2 :: rest =>
     if m1.isDigit ∧ m2.isDigit then
       (pTailAmPm rest).map (fun mer => (hh, 10 * dval m1 + dval m2, mer))
     else none
   | _ => none)
  <|> (pTailAmPm s).map (fun mer => (hh, 0, mer))

/-- The regex `^(\d{1,2})(?::(\d{2}))?\s*([ap]\.?m\.?)?$` of
`_parse_single_time_to_24h_token`, on a stripped and lowercased string.
The greedy two-digit hour alternative is tried first, with backtracking to
one digit. -/
def parseSingleRaw : Str → Option (Nat × Nat × Option Mer)
  | [] => none
  | c1 :: rest =>
    if c1.isDigit then
      (match rest with
       | c2 :: rest2 =>
         if c2.isDigit then parseAfterHH (10 * dval c1 + dval c2) rest2 else none
       | [] => none)
      <|> parseAfterHH (dval c1) rest
    else none

/-- The 12-hour to 24-hour conversion of `_parse_single_time_to_24h_token`
(and of `strptime` with `%I`/`%p`). -/
def to24Hour (hh : Nat) : Option Mer → Nat
  | some Mer.am => if hh = 12 then 0 else hh
  | some Mer.pm => if hh = 12 then 12 else hh + 12
  | none => hh

/-- `_parse_single_time_to_24h_token` from the script: parse one time and
render it as an `HHMM` token, clamping minutes into `[0, 59]`. -/
def _parse_single_time_to_24h_token (t : Str) : Option Str :=
  (parseSingleRaw (lowerStr (trim t))).map (fun r =>
    pad2 (to24Hour r.1 r.2.2) ++ pad2 (min r.2.1 59))

/-- One of the three dash characters of the separator class `[–—-]`. -/
def isDash (c : Char) : Bool := c = '-' ∨ c = '–' ∨ c = '—'

/-- Split at every dash character.  Combined with trimming each part this is
`re.split(r"\s*[–—-]\s*", s)` for a string with no leading or trailing
whitespace: every separator match contains exactly one dash, so the part
count agrees, and the `\s*` on the two sides of each dash removes exactly
the whitespace that trimming the parts removes. -/
def splitOnDashChars : Str → List Str
  | [] => [[]]
  | c :: rest =>
    if isDash c then [] :: splitOnDashChars rest
    else
      match splitOnDashChars rest with
      | t :: ts => (c :: t) :: ts
      | [] => [[c]]

/-- Word characters for the regex `\b` boundary (`[A-Za-z0-9_]`; the inputs
are ASCII). -/
def isWord (c : Char) : Bool := c.isAlphanum || c = '_'

/-- Word boundary before the start of a candidate match given the preceding
character. -/
def boundaryBefore : Option Char → Bool
  | none => true
  | some c => ! isWord c

/-- Boundary after a match ending in `M` (a word character): end of string or
a non-word character. -/
def bAfterM : Str → Bool
  | [] => true
  | c :: _ => ! isWord c

/-- Boundary after a match ending in `.` (not a word character): requires a
following word character. -/
def bAfterDot : Str → Bool
  | [] => false
  | c :: _ => isWord c

/-- One anchored attempt of `(?i)\b([AP]\.?M\.?)\b` at the head of `s`, with
`prev` the character before `s`.  Returns the text of group 1.  The trailing
`\.?` is greedy and backtracks when its `\b` fails; after backtracking, the
boundary after `M` is satisfied because the next character is the `.`. -/
def matchAmPmAt (prev : Option Char) : Str → Option Str
  | [] => none
  | c0 :: rest =>
    if boundaryBefore prev ∧ isAP c0 then
      match rest with
      | '.' :: c1 :: rest2 =>
        if isM c1 then
          match rest2 with
          | '.' :: rest3 =>
            if bAfterDot rest3 then some [c0, '.', c1, '.'] else some [c0, '.', c1]
          | _ => if bAfterM rest2 then some [c0, '.', c1] else none
        else none
      | c1 :: rest2 =>
        if isM c1 then
          match rest2 with
          | '.' :: rest3 =>
            if bAfterDot rest3 then some [c0, c1, '.'] else some [c0, c1]
          | _ => if bAfterM rest2 then some [c0, c1] else none
        else none
      | [] => none
    else none

/-- `re.search(r"(?i)\b([AP]\.?M\.?)\b", s)`: leftmost match, scanning with
the previous character to decide the left boundary. -/
def searchAmPmGo : Option Char → Str → Option Str
  | _, [] => none
  | prev, c :: rest =>
    match matchAmPmAt prev (c :: rest) with
    | some g => some g
    | none => searchAmPmGo (some c) rest

def reSearchAmPm (s : Str) : Option Str := searchAmPmGo none s

/-- The meridiem-inheritance step of `time_range_token_from_display` (lines
81-83): when the end side has an AM/PM word and the start side has none, the
matched group is appended to the start with a space. -/
def inheritedStart (l r : Str) : Str :=
  match reSearchAmPm r, reSearchAmPm l with
  | some g, none => l ++ ' ' :: g
  | _, _ => l

/-- `time_range_token_from_display` from the script (lines 62-89). -/
def time_range_token_from_display (range_text : Str) : Str :=
  let s := trim range_text
  if s = [] then []
  else if upperStr s = str "TBD" then str "tbd"
  else
    let parts := (splitOnDashChars s).map trim
    match parts with
    | [l, r] =>
      match _parse_single_time_to_24h_token (inheritedStart l r),
            _parse_single_time_to_24h_token r with
      | some a, some b => a ++ '-' :: b
      | _, _ => slugify_ascii s
    | _ =>
      match _parse_single_time_to_24h_token s with
      | some tok => tok
      | none => []

/-- `_normalize_meridiem` from the script (lines 97-112): after stripping, a
match of `\s*([AaPp][Mm])\s*$` exists iff the last two characters are
`[AaPp][Mm]`; the group is uppercased and a space is inserted before it when
the third-to-last character is not already a space. -/
def _normalize_meridiem (s : Str) : Str :=
  let s2 := trim s
  match s2.reverse with
  | m :: a :: rest =>
    if isM m ∧ isAP a then
      let mer := [Char.toUpper a, Char.toUpper m]
      match rest with
      | [] => mer
      | c :: _ => if c ≠ ' ' then rest.reverse ++ ' ' :: mer else rest.reverse ++ mer
    else s2
  | _ => s2

/-- Alternatives of the `strptime` directive `%I` (`1[0-2]|0[1-9]|[1-9]`),
greedy two-digit form first, as (value, remaining input) pairs. -/
def hour12Alts : Str → List (Nat × Str)
  | c1 :: c2 :: rest =>
    (if c1.isDigit ∧ c2.isDigit ∧ 1 ≤ 10 * dval c1 + dval c2 ∧ 10 * dval c1 + dval c2 ≤ 12
     then [(10 * dval c1 + dval c2, rest)] else []) ++
    (if c1.isDigit ∧ 1 ≤ dval c1 then [(dval c1, c2 :: rest)] else [])
  | [c1] => if c1.isDigit ∧ 1 ≤ dval c1 then [(dval c1, [])] else []
  | [] => []

/-- Alternatives of `%H` (`2[0-3]|[0-1]\d|\d`). -/
def hour24Alts : Str → List (Nat × Str)
  | c1 :: c2 :: rest =>
    (if c1.isDigit ∧ c2.isDigit ∧ 10 * dval c1 + dval c2 ≤ 23
     then [(10 * dval c1 + dval c2, rest)] else []) ++
    (if c1.isDigit then [(dval c1, c2 :: rest)] else [])
  | [c1] => if c1.isDigit then [(dval c1, [])] else []
  | [] => []

/-- Alternatives of `%M` (`[0-5]\d|\d`). -/
def minuteAlts : Str → List (Nat × Str)
  | c1 :: c2 :: rest =>
    (if c1.isDigit ∧ c2.isDigit ∧ 10 * dval c1 + dval c2 ≤ 59
     then [(10 * dval c1 + dval c2, rest)] else []) ++
    (if c1.isDigit then [(dval c1, c2 :: rest)] else [])
  | [c1] => if c1.isDigit then [(dval c1, [])] else []
  | [] => []

/-- Try the alternatives of a directive in order, with full backtracking
into the continuation, as the regex engine does. -/
def pickFirst {α β : Type} (alts : List (α × Str)) (k : α → Str → Option β) : Option β :=
  match alts with
  | [] => none
  | (n, rest) :: more =>
    match k n rest with
    | some r => some r
    | none => pickFirst more k

/-- `%p`: `AM` or `PM`, case-insensitively (the strptime regex is compiled
with `IGNORECASE`). -/
def merOf (c1 c2 : Char) : Option Mer :=
  if isM c2 then
    (if c1 = 'a' ∨ c1 = 'A' then some Mer.am
     else if c1 = 'p' ∨ c1 = 'P' then some Mer.pm
     else none)
  else none

/-- `strptime(s, "%I:%M %p")` (whitespace in the format matches `\s+`, and
the whole string must be consumed). -/
def fmtIMp (s : Str) : Option (Nat × Nat) :=
  pickFirst (hour12Alts s) (fun hh rest =>
    match rest with
    | ':' :: rest2 =>
      pickFirst (minuteAlts rest2) (fun mm rest3 =>
        match rest3 with
        | c :: rest4 =>
          if isWs c then
            match rest4.dropWhile isWs with
            | [c1, c2] => (merOf c1 c2).map (fun mer => (to24Hour hh (some mer), mm))
            | _ => none
          else none
        | [] => none)
    | _ => none)

/-- `strptime(s, "%I %p")`; the minute defaults to 0. -/
def fmtIp (s : Str) : Option (Nat × Nat) :=
  pickFirst (hour12Alts s) (fun hh rest =>
    match rest with
    | c :: rest4 =>
      if isWs c then
        match rest4.dropWhile isWs with
        | [c1, c2] => (merOf c1 c2).map (fun mer => (to24Hour hh (some mer), 0))
        | _ => none
      else none
    | [] => none)

/-- `strptime(s, "%H:%M")`. -/
def fmtHM (s : Str) : Option (Nat × Nat) :=
  pickFirst (hour24Alts s) (fun hh rest =>
    match rest with
    | ':' :: rest2 =>
      pickFirst (minuteAlts rest2) (fun mm rest3 =>
        match rest3 with
        | [] => some (hh, mm)
        | _ => none)
    | _ => none)

/-- `strptime(s, "%H")`. -/
def fmtH (s : Str) : Option (Nat × Nat) :=
  pickFirst (hour24Alts s) (fun hh rest =>
    match rest with
    | [] => some (hh, 0)
    | _ => none)

/-- `parse_time_piece` from the script (lines 114-125).  A time of day is a
pair (hour, minute) as validated by `datetime.time`. -/
def parse_time_piece (piece : Str) : Option (Nat × Nat) :=
  let s := trim piece
  if s = [] ∨ upperStr s = str "TBD" then none
  else
    let s2 := _normalize_meridiem s
    (fmtIMp s2) <|> (fmtIp s2) <|> (fmtHM s2) <|> (fmtH s2)

/-- `parse_time_range` from the script (lines 127-138): normalize dashes,
split at the first `-` if any (`s.split("-", 1)`), normalize each side and
parse it. -/
def parse_time_range (val : Str) : Option (Nat × Nat) × Option (Nat × Nat) :=
  let s := trim val
  if s = [] ∨ upperStr s = str "TBD" then (none, none)
  else
    let s2 := s.map (fun c => if c = '–' ∨ c = '—' then '-' else c)
    if '-' ∈ s2 then
      let l := s2.takeWhile (· ≠ '-')
      let r := (s2.dropWhile (· ≠ '-')).tail
      (parse_time_piece (_normalize_meridiem l), parse_time_piece (_normalize_meridiem r))
    else (parse_time_piece s2, none)

/-- `fmt_time` from the script (non-Windows branch, `"%-I:%M %p"`): 12-hour
clock with no zero padding, two-digit minutes, `AM` below noon. -/
def fmt_time : Option (Nat × Nat) → Str
  | none => []
  | some (h, m) =>
    let h12 := if h % 12 = 0 then 12 else h % 12
    natRepr h12 ++ ':' :: (pad2 m ++ ' ' :: (if h < 12 then str "AM" else str "PM"))

/-- `format_time_range` from the script (lines 145-150). -/
def format_time_range (start finish : Option (Nat × Nat)) : Str :=
  match start, finish with
  | some s, some e => fmt_time (some s) ++ ' ' :: '-' :: ' ' :: fmt_time (some e)
  | some s, none => fmt_time (some s)
  | none, _ => []

-- ---------------------------------------------------------------------------
-- Date parsing (`parse_date`, script lines 152-160) and date formatting
-- ---------------------------------------------------------------------------

/-- A `datetime.date`: the constructor validates the ranges, so a value of
this structure corresponds to a valid (proleptic Gregorian) calendar date. -/
structure PyDate where
  year : Nat
  month : Nat
  day : Nat
deriving DecidableEq

def isLeap (y : Nat) : Bool := y % 4 = 0 ∧ (y % 100 ≠ 0 ∨ y % 400 = 0)

def daysInMonth (y m : Nat) : Nat :=
  if m = 2 then (if isLeap y then 29 else 28)
  else if m = 4 ∨ m = 6 ∨ m = 9 ∨ m = 11 then 30
  else 31

/-- `datetime(year, month, day)` validation: raises (here: `none`) outside
`MINYEAR..MAXYEAR` or the days of the month.  The month and day lower bounds
are already enforced by the strptime patterns. -/
def mkDate (y m d : Nat) : Option PyDate :=
  if 1 ≤ y ∧ y ≤ 9999 ∧ 1 ≤ d ∧ d ≤ daysInMonth y m then some ⟨y, m, d⟩ else none

/-- Alternatives of `%d` (`3[01]|[1-2]\d|0[1-9]|[1-9]`). -/
def dayAlts : Str → List (Nat × Str)
  | c1 :: c2 :: rest =>
    (if c1.isDigit ∧ c2.isDigit ∧ 1 ≤ 10 * dval c1 + dval c2 ∧ 10 * dval c1 + dval c2 ≤ 31
     then [(10 * dval c1 + dval c2, rest)] else []) ++
    (if c1.isDigit ∧ 1 ≤ dval c1 then [(dval c1, c2 :: rest)] else [])
  | [c1] => if c1.isDigit ∧ 1 ≤ dval c1 then [(dval c1, [])] else []
  | [] => []

/-- Alternatives of `%m` (`1[0-2]|0[1-9]|[1-9]`): same pattern as `%I`. -/
def monthAlts : Str → List (Nat × Str) := hour12Alts

/-- `%Y`: exactly four digits. -/
def year4 : Str → Option (Nat × Str)
  | c1 :: c2 :: c3 :: c4 :: rest =>
    if c1.isDigit ∧ c2.isDigit ∧ c3.isDigit ∧ c4.isDigit then
      some (1000 * dval c1 + 100 * dval c2 + 10 * dval c3 + dval c4, rest)
    else none
  | _ => none

/-- `%y`: exactly two digits; 0-68 maps to 2000-2068, 69-99 to 1969-1999. -/
def year2 : Str → Option (Nat × Str)
  | c1 :: c2 :: rest =>
    if c1.isDigit ∧ c2.isDigit then
      let v := 10 * dval c1 + dval c2
      some (if v ≤ 68 then 2000 + v else 1900 + v, rest)
    else none
  | _ => none

def monthAbbrevs : List Str :=
  [str "Jan", str "Feb", str "Mar", str "Apr", str "May", str "Jun",
   str "Jul", str "Aug", str "Sep", str "Oct", str "Nov", str "Dec"]

def monthFulls : List Str :=
  [str "January", str "February", str "March", str "April", str "May",
   str "June", str "July", str "August", str "September", str "October",
   str "November", str "December"]

/-- Case-insensitive match of one name from `names` at the head of `s`
(`%b`/`%B` compile to an alternation of the locale month names, matched with
`IGNORECASE`; no English month name is a prefix of another within either
list, so first-match is unambiguous). -/
def matchMonthName (names : List Str) (s : Str) : Option (Nat × Str) :=
  go names 1 s
where
  go : List Str → Nat → Str → Option (Nat × Str)
    | [], _, _ => none
    | nm :: more, i, s =>
      if lowerStr nm = lowerStr (s.take nm.length) ∧ nm.length ≤ s.length then
        some (i, s.drop nm.length)
      else go more (i + 1) s

/-- `strptime(s, "%Y-%m-%d")` followed by `datetime` validation. -/
def fmtYMD (s : Str) : Option PyDate :=
  match year4 s with
  | none => none
  | some (y, rest) =>
    match rest with
    | '-' :: rest2 =>
      pickFirst (monthAlts rest2) (fun m rest3 =>
        match rest3 with
        | '-' :: rest4 =>
          pickFirst (dayAlts rest4) (fun d rest5 =>
            match rest5 with
            | [] => mkDate y m d
            | _ => none)
        | _ => none)
    | _ => none

/-- `strptime(s, "%m/%d/%Y")`. -/
def fmtMDY (s : Str) : Option PyDate :=
  pickFirst (monthAlts s) (fun m rest =>
    match rest with
    | '/' :: rest2 =>
      pickFirst (dayAlts rest2) (fun d rest3 =>
        match rest3 with
        | '/' :: rest4 =>
          match year4 rest4 with
          | some (y, []) => mkDate y m d
          | _ => none
        | _ => none)
    | _ => none)

/-- `strptime(s, "%m/%d/%y")`. -/
def fmtMDy (s : Str) : Option PyDate :=
  pickFirst (monthAlts s) (fun m rest =>
    match rest with
    | '/' :: rest2 =>
      pickFirst (dayAlts rest2) (fun d rest3 =>
        match rest3 with
        | '/' :: rest4 =>
          match year2 rest4 with
          | some (y, []) => mkDate y m d
          | _ => none
        | _ => none)
    | _ => none)

/-- `strptime(s, "%b %d, %Y")` / `"%B %d, %Y"` (format whitespace is `\s+`). -/
def fmtMonthName (names : List Str) (s : Str) : Option PyDate :=
  match matchMonthName names s with
  | none => none
  | some (m, rest) =>
    match rest with
    | c :: rest2 =>
      if isWs c then
        pickFirst (dayAlts (rest2.dropWhile isWs)) (fun d rest3 =>
          match rest3 with
          | ',' :: c2 :: rest4 =>
            if isWs c2 then
              match year4 (rest4.dropWhile isWs) with
              | some (y, []) => mkDate y m d
              | _ => none
            else none
          | _ => none)
      else none
    | [] => none

/-- `parse_date` from the script: try the five formats in order on the
stripped input, returning `None` when all fail. -/
def parse_date (val : Str) : Option PyDate :=
  if val = [] then none
  else
    let s := trim val
    (fmtYMD s) <|> (fmtMDY s) <|> (fmtMDy s) <|>
      (fmtMonthName monthAbbrevs s) <|> (fmtMonthName monthFulls s)

/-- Day of week by Sakamoto's method, 0 = Sunday, agreeing with
`date.strftime("%A")`. -/
def dayOfWeek (dt : PyDate) : Nat :=
  let t := [0, 3, 2, 5, 0, 3, 5, 1, 4, 6, 2, 4]
  let y := if dt.month < 3 then dt.year - 1 else dt.year
  (y + y / 4 - y / 100 + y / 400 + t.getD (dt.month - 1) 0 + dt.day) % 7

def dayNames : List Str :=
  [str "Sunday", str "Monday", str "Tuesday", str "Wednesday",
   str "Thursday", str "Friday", str "Saturday"]

/-- `d.strftime("%A")`. -/
def weekdayName (dt : PyDate) : Str := dayNames.getD (dayOfWeek dt) []

/-- `weekday_anchor_from_date` from the script (lines 91-92). -/
def weekday_anchor_from_date : Option PyDate → Str
  | none => []
  | some dt => lowerStr (weekdayName dt)

/-- `human_day_label_from_date` from the script (lines 162-170, non-Windows
branch): `"{%A}, {%b}. {%-d}"`. -/
def human_day_label_from_date : Option PyDate → Str
  | none => []
  | some dt =>
    weekdayName dt ++ ',' :: ' ' :: (monthAbbrevs.getD (dt.month - 1) [] ++
      '.' :: ' ' :: natRepr dt.day)

-- ---------------------------------------------------------------------------
-- Session records (script lines 230-286)
-- ---------------------------------------------------------------------------

/-- Python `needle in hay` (substring containment). -/
def hasInfix (needle : Str) : Str → Bool
  | [] => List.isPrefixOf needle []
  | c :: rest => List.isPrefixOf needle (c :: rest) || hasInfix needle rest

/-- Lexicographic order on `datetime.time` values (hour, minute). -/
def timLt (a b : Nat × Nat) : Bool := a.1 < b.1 ∨ (a.1 = b.1 ∧ a.2 < b.2)

def timLe (a b : Nat × Nat) : Bool := a.1 < b.1 ∨ (a.1 = b.1 ∧ a.2 ≤ b.2)

/-- Python string `<` (code point lexicographic). -/
def strLt : Str → Str → Bool
  | [], [] => false
  | [], _ :: _ => true
  | _ :: _, [] => false
  | a :: as, b :: bs =>
    if a.toNat < b.toNat then true
    else if b.toNat < a.toNat then false
    else strLt as bs

/-- The `Session` dataclass.  `end` is a Lean keyword, hence `end_`. -/
structure Session where
  date_d : Option PyDate
  day_label : Str
  start : Option (Nat × Nat)
  end_ : Option (Nat × Nat)
  title : Str
  code : Str
  name : Str
deriving DecidableEq

/-- `Session.css_class`. -/
def Session.css_class (s : Session) : Str :=
  let t := lowerStr s.title
  let c := lowerStr s.code
  if hasInfix (str "paper session") c then str "paper-sessions"
  else if hasInfix (str "coffee") t ∨ hasInfix (str "poster") t then str "break-session"
  else if hasInfix (str "lunch") t then str "lunch-session"
  else if hasInfix (str "opening") t ∨ hasInfix (str "keynote") t ∨
      hasInfix (str "conference open") t then str "conference-opening"
  else if hasInfix (str "closing") t then str "closing-session"
  else str "special-session"

def Session.is_lunch (s : Session) : Bool := s.css_class = str "lunch-session"

/-- `self.start or time(0, 0)` (a `time` value is always truthy). -/
def timOr0 (t : Option (Nat × Nat)) : Nat × Nat := t.getD (0, 0)

def Session.is_evening (s : Session) : Bool := timLe (17, 30) (timOr0 s.start)

def Session.is_morning (s : Session) : Bool := timLt (timOr0 s.start) (12, 30)

def Session.is_afternoon (s : Session) : Bool :=
  ¬ s.is_morning ∧ ¬ s.is_lunch ∧ ¬ s.is_evening

/-- `Session.id_type`: the code for papers, the title otherwise. -/
def Session.id_type (s : Session) : Str := if s.code ≠ [] then s.code else s.title

-- ---------------------------------------------------------------------------
-- Anchor IDs (script lines 200-226)
-- ---------------------------------------------------------------------------

/-- The candidate sequence of the collision loop in
`make_fullschedule_anchor`: the base itself, then `base-x2`, `base-x3`, … -/
def anchorCand (base : Str) (i : Nat) : Str :=
  if i ≤ 1 then base else base ++ '-' :: 'x' :: natRepr i

/-- The `while anchor in registry` loop.  The fuel is one more than the
registry size at the call site, which suffices because the candidates are
pairwise distinct. -/
def freshFrom (base : Str) (reg : List Str) : Nat → Nat → Str
  | i, 0 => anchorCand base i
  | i, fuel+1 =>
    if anchorCand base i ∈ reg then freshFrom base reg (i + 1) fuel
    else anchorCand base i

/-- The base ID of `make_fullschedule_anchor`: slugified components joined
with hyphens, empty components dropped (`if p` drops falsy strings). -/
def anchor_base (day_anchor time_text session_type session_name : Str) : Str :=
  let st_slug := slugify_ascii session_type
  let sn_slug := slugify_ascii session_name
  let ttok := time_range_token_from_display time_text
  let parts := [day_anchor, st_slug, sn_slug, ttok].filter (fun p => p ≠ [])
  if parts = [] then (if day_anchor ≠ [] then day_anchor else str "timeslot")
  else joinSep ['-'] parts

/-- `make_fullschedule_anchor`: returns the issued anchor and the updated
registry (the Python version mutates the registry set in place; membership
is the only operation used, so a list models it). -/
def make_fullschedule_anchor (day_anchor time_text session_type session_name : Str)
    (registry : List Str) : Str × List Str :=
  let base := anchor_base day_anchor time_text session_type session_name
  let a := freshFrom base registry 1 (registry.length + 1)
  (a, a :: registry)

/-- `session_anchor_href` (script lines 218-226). -/
def session_anchor_href (s : Session) (day_registry : List Str) : Str × List Str :=
  let p := make_fullschedule_anchor (weekday_anchor_from_date s.date_d)
    (format_time_range s.start s.end_) s.id_type
    (if s.code ≠ [] then s.name else []) day_registry
  ('#' :: p.1, p.2)

-- ---------------------------------------------------------------------------
-- Column autodetection (script lines 290-319)
-- ---------------------------------------------------------------------------

def LIKELY_TIME_KEYS : List Str := [str "time", str "time (mt)"]
def LIKELY_TYPE_KEYS : List Str := [str "session type", str "type"]
def LIKELY_NAME_KEYS : List Str := [str "session name", str "name", str "track"]
def LIKELY_DATE_KEYS : List Str := [str "date", str "day/date", str "when"]

/-- One assignment `d[k] = v` of a Python dict comprehension: a repeated key
keeps its first position but takes the new value. -/
def dictUpsert (k v : Str) (d : List (Str × Str)) : List (Str × Str) :=
  if d.any (fun p => p.1 = k) then d.map (fun p => if p.1 = k then (k, v) else p)
  else d ++ [(k, v)]

/-- `fn_lower = {f.lower().strip(): f for f in fieldnames}`. -/
def fnLower (fieldnames : List Str) : List (Str × Str) :=
  fieldnames.foldl (fun d f => dictUpsert (trim (lowerStr f)) f d) []

/-- One pass of `find_key`: candidates in priority order, and for each the
first header key (in dict order) satisfying `test`. -/
def passOver (fnl : List (Str × Str)) (test : Str → Str → Bool) : List Str → Option Str
  | [] => none
  | c :: more =>
    match (fnl.find? (fun e => test c e.1)).map (fun e => e.2) with
    | some v => some v
    | none => passOver fnl test more

/-- `find_key` inside `autodetect_columns`: an exact-or-prefix pass over all
candidates, then a substring pass. -/
def find_key (fnl : List (Str × Str)) (cands : List Str) : Option Str :=
  match passOver fnl (fun c k => k = c ∨ List.isPrefixOf c k) cands with
  | some v => some v
  | none => passOver fnl (fun c k => hasInfix c k) cands

structure Cols where
  date : Str
  time : Str
  type : Str
  name : Str
deriving DecidableEq

/-- `autodetect_columns`: missing roles become the empty string
(`col or ""`). -/
def autodetect_columns (fieldnames : List Str) : Cols :=
  let fnl := fnLower fieldnames
  { date := (find_key fnl LIKELY_DATE_KEYS).getD []
    time := (find_key fnl LIKELY_TIME_KEYS).getD []
    type := (find_key fnl LIKELY_TYPE_KEYS).getD []
    name := (find_key fnl LIKELY_NAME_KEYS).getD [] }

/-- `[k for k, v in cols.items() if not v]` in the dict order
date, time, type, name. -/
def missingRoles (c : Cols) : List Str :=
  (if c.date = [] then [str "date"] else []) ++
  (if c.time = [] then [str "time"] else []) ++
  (if c.type = [] then [str "type"] else []) ++
  (if c.name = [] then [str "name"] else [])

-- ---------------------------------------------------------------------------
-- Loading sessions (script lines 321-363)
-- ---------------------------------------------------------------------------

/-- One CSV data row, reduced to the four cells selected by the detected
columns (`r.get(cols[...], "") or ""`). -/
structure RawRow where
  dateCell : Str
  timeCell : Str
  typeCell : Str
  nameCell : Str
deriving DecidableEq

/-- The date-tracking statement of the loop: a non-blank date cell replaces
the running date with its parse result (possibly `None`), a blank one keeps
it. -/
def stepDate (cur : Option PyDate) (r : RawRow) : Option PyDate :=
  if trim r.dateCell ≠ [] then parse_date (trim r.dateCell) else cur

/-- The body of the row loop of `load_sessions` applied to one row, given
the running date *after* its date cell was processed: `none` when the row is
skipped (blank session text, or no usable time). -/
def rowSession (cur : Option PyDate) (r : RawRow) : Option Session :=
  let se := parse_time_range (trim r.timeCell)
  let typ := trim r.typeCell
  let nm := trim r.nameCell
  let isPaper := List.isPrefixOf (str "paper session") (lowerStr typ)
  let code := if isPaper then typ else []
  let title := if isPaper then [] else typ
  if typ = [] ∧ nm = [] then none
  else if se.1 = none ∧ se.2 = none then none
  else some ⟨cur, human_day_label_from_date cur, se.1, se.2, title, code, nm⟩

/-- The row loop of `load_sessions` (lines 332-363), starting from a given
running date (`None` at the top of the function). -/
def load_sessions : Option PyDate → List RawRow → List Session
  | _, [] => []
  | cur, r :: rest =>
    let cur2 := stepDate cur r
    match rowSession cur2 r with
    | some s => s :: load_sessions cur2 rest
    | none => load_sessions cur2 rest

-- ---------------------------------------------------------------------------
-- Partitioning and parallel grouping (script lines 365-407)
-- ---------------------------------------------------------------------------

/-- One `setdefault(key, []).append(x)` on an insertion-ordered dict of
lists. -/
def addEntry {κ α : Type} [DecidableEq κ] (key : α → κ) (x : α) :
    List (κ × List α) → List (κ × List α)
  | [] => [(key x, [x])]
  | (k, items) :: bs =>
    if key x = k then (k, items ++ [x]) :: bs else (k, items) :: addEntry key x bs

/-- Grouping a list into an insertion-ordered dict of lists, as the
`setdefault` loops do. -/
def groupByKey {κ α : Type} [DecidableEq κ] (key : α → κ) (l : List α) :
    List (κ × List α) :=
  l.foldl (fun acc x => addEntry key x acc) []

/-- Stable insertion: `x` goes after every element not greater than it,
matching Python's stable `sorted`/`list.sort` for the strict order `lt`. -/
def insertSorted {α : Type} (lt : α → α → Bool) (x : α) : List α → List α
  | [] => [x]
  | y :: ys => if lt x y then x :: y :: ys else y :: insertSorted lt x ys

def sortByLt {α : Type} (lt : α → α → Bool) (l : List α) : List α :=
  l.foldl (fun acc x => insertSorted lt x acc) []

/-- Python `<` on the tuple `(code, name, title)`. -/
def cntLt (a b : Session) : Bool :=
  if a.code ≠ b.code then strLt a.code b.code
  else if a.name ≠ b.name then strLt a.name b.name
  else strLt a.title b.title

/-- Python `<` on `(start or 0:00, end or 0:00, code, name, title)`. -/
def fullLt (a b : Session) : Bool :=
  if timOr0 a.start ≠ timOr0 b.start then timLt (timOr0 a.start) (timOr0 b.start)
  else if timOr0 a.end_ ≠ timOr0 b.end_ then timLt (timOr0 a.end_) (timOr0 b.end_)
  else cntLt a b

/-- Python `<` on `(start or 0:00, end or 0:00)` (lunch/evening sort key). -/
def seLt (a b : Session) : Bool :=
  if timOr0 a.start ≠ timOr0 b.start then timLt (timOr0 a.start) (timOr0 b.start)
  else timLt (timOr0 a.end_) (timOr0 b.end_)

structure DayBuckets where
  header : Str
  morning : List Session
  lunch : List Session
  afternoon : List Session
  evening : List Session
deriving DecidableEq

/-- `partition_by_day`. -/
def partition_by_day (sessions : List Session) : List (Str × DayBuckets) :=
  (groupByKey Session.day_label sessions).map (fun p =>
    (p.1,
      { header := p.1
        morning := sortByLt fullLt (p.2.filter (fun x => x.is_morning ∧ ¬ x.is_lunch))
        lunch := sortByLt seLt (p.2.filter (fun x => x.is_lunch))
        afternoon := sortByLt fullLt (p.2.filter (fun x => x.is_afternoon))
        evening := sortByLt seLt (p.2.filter (fun x => x.is_evening ∧ ¬ x.is_lunch)) }))

/-- `(s.start or time(0,0)).strftime("%H:%M")`. -/
def fmtHHMM (t : Nat × Nat) : Str := pad2 t.1 ++ ':' :: pad2 t.2

/-- The grouping key of `group_parallel`: the pair of `"%H:%M"` strings. -/
def gkey (s : Session) : Str × Str := (fmtHHMM (timOr0 s.start), fmtHHMM (timOr0 s.end_))

/-- Python `<` on the key pair of `group_parallel`. -/
def keyPairLt (a b : Str × Str) : Bool :=
  if a.1 ≠ b.1 then strLt a.1 b.1 else strLt a.2 b.2

/-- `group_parallel` before dropping the keys: bucket by `gkey`, sort each
bucket by `(code, name, title)`, then sort the groups by key. -/
def group_parallel_keyed (sessions : List Session) :
    List ((Str × Str) × List Session) :=
  sortByLt (fun p q => keyPairLt p.1 q.1)
    ((groupByKey gkey sessions).map (fun p => (p.1, sortByLt cntLt p.2)))

/-- `group_parallel` (script lines 390-407). -/
def group_parallel (sessions : List Session) : List (List Session) :=
  (group_parallel_keyed sessions).map Prod.snd

-- ---------------------------------------------------------------------------
-- HTML helpers and `cell_div_html` (script lines 17-31, 183-198, 410-488)
-- ---------------------------------------------------------------------------

/-- `escape_html`: the five sequential `str.replace` calls; none of the
introduced entity texts contains a character replaced by a later call, so
the composition is a single character-wise expansion. -/
def escChar (c : Char) : Str :=
  if c = '&' then str "&amp;"
  else if c = '<' then str "&lt;"
  else if c = '>' then str "&gt;"
  else if c = Char.ofNat 34 then str "&quot;"
  else if c = Char.ofNat 39 then str "&#39;"
  else [c]

def escape_html (s : Str) : Str := s.flatMap escChar

/-- Split at every occurrence of a character. -/
def splitOnChar (ch : Char) : Str → List Str
  | [] => [[]]
  | c :: rest =>
    if c = ch then [] :: splitOnChar ch rest
    else
      match splitOnChar ch rest with
      | t :: ts => (c :: t) :: ts
      | [] => [[c]]

/-- Python `str.splitlines()` for text whose only line terminator is `\n`:
like splitting at newlines, except that the empty string yields no lines and
a trailing newline yields no final empty line. -/
def splitLines (s : Str) : List Str :=
  if s = [] then []
  else
    let parts := splitOnChar '\n' s
    if parts.getLast? = some [] then parts.dropLast else parts

/-- `indent_block(text, level)` with the default two-space indent; blank
lines (`not line.strip()`) are left unindented. -/
def indent_block (text : Str) (level : Nat) : Str :=
  joinSep ['\n'] ((splitLines text).map (fun line =>
    if trim line ≠ [] then List.replicate (2 * level) ' ' ++ line else line))

/-- `[A-Za-z0-9]`. -/
def isAlnumAscii (c : Char) : Bool := c.isAlpha || c.isDigit

/-- One anchored attempt of `(?i)poster\s*session\s*([A-Za-z0-9]+)`,
returning group 1. -/
def matchPosterAt (s : Str) : Option Str :=
  if lowerStr (s.take 6) = str "poster" ∧ 6 ≤ s.length then
    let r1 := (s.drop 6).dropWhile isWs
    if lowerStr (r1.take 7) = str "session" ∧ 7 ≤ r1.length then
      let g := ((r1.drop 7).dropWhile isWs).takeWhile isAlnumAscii
      if g ≠ [] then some g else none
    else none
  else none

/-- `_POSTER_RE.search`: leftmost match. -/
def searchPosterGo : Str → Option Str
  | [] => none
  | c :: rest =>
    match matchPosterAt (c :: rest) with
    | some g => some g
    | none => searchPosterGo rest

/-- `poster_session_external_href` (script lines 19-31). -/
def poster_session_external_href (title : Str) : Option Str :=
  if title = [] then none
  else
    match searchPosterGo title with
    | none => none
    | some g =>
      let key := subRuns isKeep '_' (lowerStr g)
      some (str "poster_session_" ++ key ++ str ".html")

/-- `_aria_for_session` inside `cell_div_html`. -/
def _aria_for_session (s : Session) : Str :=
  if s.code ≠ [] then
    (if s.name ≠ [] then s.code ++ ' ' :: '—' :: ' ' :: s.name else s.code)
  else s.title

/-- One iteration of the item loop of `cell_div_html` (without the divider):
the session-item div and the updated registry.  Note that the non-paper
branch calls `session_anchor_href` a second time (`poster_href or
session_anchor_href(...)`) after the unconditional call at the top of the
loop body. -/
def sessionItemHtml (css time_text : Str) (show_time : Bool) (s : Session)
    (reg : List Str) : Str × List Str :=
  let p1 := session_anchor_href s reg
  let time_h3 :=
    if show_time ∧ time_text ≠ [] then
      str "<h3 class=\"time-heading\">" ++ escape_html time_text ++ str "</h3>"
    else []
  if css = str "paper-sessions" ∧ s.code ≠ [] then
    let session_h4 := str "<h4 class=\"session-heading\">" ++
      str "<span class=\"session-code\">" ++ escape_html s.code ++ str "</span>" ++
      str "<span class=\"session-name\">" ++ escape_html s.name ++ str "</span>" ++
      str "</h4>"
    (str "<div class=\"session-item\">\n" ++ time_h3 ++
      str "  <a class=\"session-link\" href=\"" ++ escape_html p1.1 ++ str "\"" ++
      str "     aria-label=\"" ++
      escape_html (if time_text ≠ [] then time_text ++ str ", " else []) ++
      escape_html (s.code ++ (if s.name ≠ [] then str ": " ++ s.name else [])) ++
      str "\">\n" ++
      str "    " ++ session_h4 ++ str "\n" ++
      str "  </a>\n" ++
      str "</div>", p1.2)
  else
    let session_h4 := str "<h4 class=\"session-heading\">" ++
      str "<span class=\"session-type\">" ++ escape_html s.title ++ str "</span>" ++
      str "</h4>"
    let hr :=
      match poster_session_external_href s.title with
      | some ph => (ph, p1.2)
      | none => session_anchor_href s p1.2
    (str "<div class=\"session-item\">\n" ++ time_h3 ++
      str "  <a class=\"session-link\" href=\"" ++ escape_html hr.1 ++ str "\"" ++
      str "     aria-label=\"" ++
      escape_html (if time_text ≠ [] then time_text ++ str ", " else []) ++
      escape_html s.title ++
      str "\">\n" ++
      str "    " ++ session_h4 ++ str "\n" ++
      str "  </a>\n" ++
      str "</div>", hr.2)

/-- The item loop of `cell_div_html`: `show_time` only for index 0, a
divider between consecutive items, registry threaded through. -/
def cellParts (css time_text : Str) : List Session → Nat → List Str →
    (List Str × List Str)
  | [], _, reg => ([], reg)
  | s :: rest, i, reg =>
    let pr := sessionItemHtml css time_text (i = 0) s reg
    let more := cellParts css time_text rest (i + 1) pr.2
    (if rest ≠ [] then
        pr.1 :: str "<div class=\"session-divider\"></div>" :: more.1
      else pr.1 :: more.1, more.2)

/-- `cell_div_html` (script lines 410-488). -/
def cell_div_html (group : List Session) (day_registry : List Str)
    (day_label : Str) : Str × List Str :=
  let css := match group with
    | [] => str "special-session"
    | s :: _ => s.css_class
  let time_text := match group with
    | [] => []
    | s :: _ => format_time_range s.start s.end_
  let aria_items := (group.map _aria_for_session).filter (fun x => x ≠ [])
  let aria_label := day_label ++ str ", " ++ time_text ++ str ": " ++
    joinSep (str " | ") aria_items
  let pr := cellParts css time_text group 0 day_registry
  (str "<div class=\"schedule-grid-td " ++ css ++ str "\" aria-label=\"" ++
    escape_html aria_label ++ str "\">\n" ++
    indent_block (joinSep ['\n'] pr.1) 1 ++
    str "\n</div>", pr.2)

-- ---------------------------------------------------------------------------
-- Fatal-error path of `load_sessions` and `main` (script lines 321-330,
-- 610-630)
-- ---------------------------------------------------------------------------

def squote : Char := Char.ofNat 39

/-- Python `repr` of a list of strings (for header names without quote or
backslash characters, which is all the script's diagnostics ever print). -/
def pyListRepr (l : List Str) : Str :=
  '[' :: (joinSep (str ", ") (l.map (fun h => squote :: (h ++ [squote]))) ++ [']'])

/-- The `ValueError` message of `load_sessions` for missing columns. -/
def loadErrorMsg (missing : List Str) (fieldnames : List Str) : Str :=
  str "Could not detect columns for: " ++ joinSep (str ", ") missing ++
    str ". Found headers: " ++ pyListRepr fieldnames

/-- `load_sessions` including its header checks: `Except.error` models the
raised `ValueError`. -/
def load_sessions_checked (fieldnames : List Str) (rows : List RawRow) :
    Except Str (List Session) :=
  if fieldnames = [] then Except.error (str "CSV has no header.")
  else
    let cols := autodetect_columns fieldnames
    let missing := missingRoles cols
    if missing ≠ [] then Except.error (loadErrorMsg missing fieldnames)
    else Except.ok (load_sessions none rows)

/-- `main` reduced to its observable exit behaviour on a parsed CSV: the
`try/except` around `load_sessions` prints `Error reading CSV: {e}` to
stderr and exits with code 1; otherwise rendering and output cannot raise
and the process exits with code 0. -/
def mainResult (fieldnames : List Str) (rows : List RawRow) : Nat × Option Str :=
  match load_sessions_checked fieldnames rows with
  | Except.error e => (1, some (str "Error reading CSV: " ++ e))
  | Except.ok _ => (0, none)

-- ---------------------------------------------------------------------------
-- Claim C2: end-to-end rendering of one CSV row
-- ---------------------------------------------------------------------------

/-- The CSV row of claim C2. -/
def c2row : RawRow :=
  ⟨str "10/27/2025", str "9:00 AM-10:45 AM", str "Paper Session 1A",
   str "Inclusive Mixed Reality"⟩

/-- The session the loader builds from `c2row`. -/
def c2sess : Session :=
  ⟨some ⟨2025, 10, 27⟩, str "Monday, Oct. 27", some (9, 0), some (10, 45),
   [], str "Paper Session 1A", str "Inclusive Mixed Reality"⟩

set_option maxRecDepth 100000 in
/-- Claim C2.  The CSV row `Date=10/27/2025, Time=9:00 AM-10:45 AM,
Session Type=Paper Session 1A, Session Name=Inclusive Mixed Reality` loads
into one session; its cell links to
`#monday-paper-session-1a-inclusive-mixed-reality-0900-1045` and its visible
time label is `9:00 AM - 10:45 AM` (both strings occur verbatim in the cell
HTML emitted by `cell_div_html`). -/
theorem c2_end_to_end :
    load_sessions none [c2row] = [c2sess] ∧
    (session_anchor_href c2sess []).1 =
      str "#monday-paper-session-1a-inclusive-mixed-reality-0900-1045" ∧
    format_time_range c2sess.start c2sess.end_ = str "9:00 AM - 10:45 AM" ∧
    hasInfix (str "href=\"#monday-paper-session-1a-inclusive-mixed-reality-0900-1045\"")
      (cell_div_html [c2sess] [] (str "Monday, Oct. 27")).1 = true ∧
    hasInfix (str "<h3 class=\"time-heading\">9:00 AM - 10:45 AM</h3>")
      (cell_div_html [c2sess] [] (str "Monday, Oct. 27")).1 = true := by
  refine ⟨by decide, by decide, by decide, by decide, by decide⟩

-- ---------------------------------------------------------------------------
-- Claim C3: meridiem inheritance (counterexample and amended statement)
-- ---------------------------------------------------------------------------

set_option maxRecDepth 10000 in
/-- Counterexample to claim C3 as stated: the time normalizer
`parse_time_range` does NOT inherit the right-hand meridiem.  On
`'1:00 - 2:30 PM'` it parses the start as 01:00, not 13:00 (the end is
14:30, so the meridiem was present on the right).  It is the anchor-token
generator `time_range_token_from_display` that inherits (token
`1300-1430`). -/
theorem c3_counterexample :
    parse_time_range (str "1:00 - 2:30 PM") = (some (1, 0), some (14, 30)) ∧
    some ((1 : Nat), (0 : Nat)) ≠ some ((13 : Nat), (0 : Nat)) ∧
    time_range_token_from_display (str "1:00 - 2:30 PM") = str "1300-1430" := by
  refine ⟨by decide, by decide, by decide⟩

-- ---------------------------------------------------------------------------
-- Claim C4: column autodetection priority (counterexample)
-- ---------------------------------------------------------------------------

set_option maxRecDepth 10000 in
/-- Counterexample to claim C4 as stated: with headers
`["Time (MT)", "Time", "Date", "Session Type", "Session Name"]`, the header
`"Time"` matches the candidate `"time"` exactly, yet the time role is bound
to the earlier prefix-matching header `"Time (MT)"`, because the code tests
`k == c or k.startswith(c)` in a single pass over the headers. -/
theorem c4_counterexample :
    (autodetect_columns [str "Time (MT)", str "Time", str "Date",
        str "Session Type", str "Session Name"]).time = str "Time (MT)" ∧
    trim (lowerStr (str "Time")) = str "time" ∧
    (str "time") ∈ LIKELY_TIME_KEYS ∧
    str "Time (MT)" ≠ str "Time" := by
  refine ⟨by decide, by decide, by decide, by decide⟩

-- ---------------------------------------------------------------------------
-- Claim C1: anchor uniqueness and suffixing
-- ---------------------------------------------------------------------------

lemma nodup_length_le {α : Type} [DecidableEq α] :
    ∀ (l r : List α), l.Nodup → (∀ x ∈ l, x ∈ r) → l.length ≤ r.length := by
  intro l
  induction l with
  | nil => intro r _ _; simp
  | cons a as ih =>
    intro r hnd hsub
    have ha : a ∈ r := hsub a (List.mem_cons_self _ _)
    have hnd' := (List.nodup_cons.mp hnd)
    have hsub' : ∀ x ∈ as, x ∈ r.erase a := by
      intro x hx
      have hxr : x ∈ r := hsub x (List.mem_cons_of_mem _ hx)
      have hxa : x ≠ a := fun he => hnd'.1 (he ▸ hx)
      exact (List.mem_erase_of_ne hxa).mpr hxr
    have := ih (r.erase a) hnd'.2 hsub'
    have hlen := List.length_erase_of_mem ha
    have hpos : 0 < r.length := List.length_pos_of_mem ha
    simp only [List.length_cons]
    omega

lemma anchorCand_inj (base : Str) :
    ∀ i j, 1 ≤ i → 1 ≤ j → anchorCand base i = anchorCand base j → i = j := by
  intro i j hi hj h
  unfold anchorCand at h
  by_cases hi1 : i ≤ 1 <;> by_cases hj1 : j ≤ 1
  · omega
  · rw [if_pos hi1, if_neg hj1] at h
    have := congrArg List.length h
    simp only [List.length_append, List.length_cons] at this
    omega
  · rw [if_neg hi1, if_pos hj1] at h
    have := congrArg List.length h
    simp only [List.length_append, List.length_cons] at this
    omega
  · rw [if_neg hi1, if_neg hj1] at h
    have h2 := List.append_cancel_left h
    simp only [List.cons.injEq, true_and] at h2
    exact natRepr_inj i j h2

lemma freshFrom_not_mem_of_window (base : Str) (reg : List Str) :
    ∀ fuel i, (∃ j, i ≤ j ∧ j < i + fuel ∧ anchorCand base j ∉ reg) →
      freshFrom base reg i fuel ∉ reg := by
  intro fuel
  induction fuel with
  | zero => intro i ⟨j, hij, hlt, _⟩; omega
  | succ fuel ih =>
    intro i ⟨j, hij, hlt, hnm⟩
    by_cases hc : anchorCand base i ∈ reg
    · have hji : j ≠ i := fun he => hnm (he ▸ hc)
      rw [show freshFrom base reg i (fuel + 1) = freshFrom base reg (i + 1) fuel from by
        simp [freshFrom, hc]]
      exact ih (i + 1) ⟨j, by omega, by omega, hnm⟩
    · rw [show freshFrom base reg i (fuel + 1) = anchorCand base i from by
        simp [freshFrom, hc]]
      exact hc

lemma exists_fresh_window (base : Str) (reg : List Str) :
    ∃ j, 1 ≤ j ∧ j < 1 + (reg.length + 1) ∧ anchorCand base j ∉ reg := by
  by_contra hcon
  push_neg at hcon
  have hall : ∀ j ∈ List.range' 1 (reg.length + 1), anchorCand base j ∈ reg := by
    intro j hj
    rw [List.mem_range'_1] at hj
    exact hcon j hj.1 (by omega)
  have hnd : ((List.range' 1 (reg.length + 1)).map (anchorCand base)).Nodup := by
    refine List.Nodup.map_on ?_ (List.nodup_range' _ _)
    intro x hx y hy hxy
    rw [List.mem_range'_1] at hx hy
    exact anchorCand_inj base x y hx.1 hy.1 hxy
  have hsub : ∀ a ∈ (List.range' 1 (reg.length + 1)).map (anchorCand base), a ∈ reg := by
    intro a ha
    rw [List.mem_map] at ha
    obtain ⟨j, hj, rfl⟩ := ha
    exact hall j hj
  have := nodup_length_le _ _ hnd hsub
  simp [List.length_range'] at this

lemma fresh_not_mem (base : Str) (reg : List Str) :
    freshFrom base reg 1 (reg.length + 1) ∉ reg :=
  freshFrom_not_mem_of_window base reg (reg.length + 1) 1 (exists_fresh_window base reg)

lemma two_mem_two_le_length {α : Type} [DecidableEq α] {a b : α} {l : List α}
    (ha : a ∈ l) (hb : b ∈ l) (hab : a ≠ b) : 2 ≤ l.length := by
  have hb' : b ∈ l.erase a := (List.mem_erase_of_ne (fun h => hab h.symm)).mpr hb
  have h1 : 0 < (l.erase a).length := List.length_pos_of_mem hb'
  have h2 := List.length_erase_of_mem ha
  have h3 : 0 < l.length := List.length_pos_of_mem ha
  omega

lemma anchorCand_two (base : Str) : anchorCand base 2 = base ++ str "-x2" := by
  unfold anchorCand
  norm_num
  rfl

lemma anchorCand_three (base : Str) : anchorCand base 3 = base ++ str "-x3" := by
  unfold anchorCand
  norm_num
  rfl

/-- The sequence of anchors issued by threading one per-day registry through
a series of `make_fullschedule_anchor` requests, as the renderer does for
the cells of one day column. -/
def issueAnchors : List (Str × Str × Str × Str) → List Str → List Str × List Str
  | [], reg => ([], reg)
  | q :: rest, reg =>
    let p := make_fullschedule_anchor q.1 q.2.1 q.2.2.1 q.2.2.2 reg
    let t := issueAnchors rest p.2
    (p.1 :: t.1, t.2)

lemma make_anchor_spec (da tt st sn : Str) (reg : List Str) :
    (make_fullschedule_anchor da tt st sn reg).1 ∉ reg ∧
      (make_fullschedule_anchor da tt st sn reg).2 =
        (make_fullschedule_anchor da tt st sn reg).1 :: reg := by
  exact ⟨fresh_not_mem _ reg, rfl⟩

lemma issueAnchors_fresh :
    ∀ reqs reg, (∀ a ∈ (issueAnchors reqs reg).1, a ∉ reg) ∧
      (issueAnchors reqs reg).1.Nodup := by
  intro reqs
  induction reqs with
  | nil => intro reg; exact ⟨by intro a ha; simp [issueAnchors] at ha, by simp [issueAnchors]⟩
  | cons q rest ih =>
    intro reg
    obtain ⟨hfresh, hnd⟩ := ih ((make_fullschedule_anchor q.1 q.2.1 q.2.2.1 q.2.2.2 reg).1 :: reg)
    have hreg2 : (make_fullschedule_anchor q.1 q.2.1 q.2.2.1 q.2.2.2 reg).2 =
        (make_fullschedule_anchor q.1 q.2.1 q.2.2.1 q.2.2.2 reg).1 :: reg := rfl
    constructor
    · intro a ha
      simp only [issueAnchors, List.mem_cons] at ha
      rcases ha with rfl | ha
      · exact fresh_not_mem _ reg
      · have := hfresh a (by rw [← hreg2]; exact ha)
        intro hmem
        exact this (List.mem_cons_of_mem _ hmem)
    · simp only [issueAnchors, List.nodup_cons]
      constructor
      · intro hmem
        have := hfresh _ (by rw [← hreg2]; exact hmem)
        exact this (List.mem_cons_self _ _)
      · rw [← hreg2] at hnd
        exact hnd

/-- Claim C1.  Per-day anchor IDs: every anchor issued through a registry is
fresh and recorded; with no collision the base ID itself (a pure function of
the (day, type, name, time) tuple) is issued; a collision yields `-x2`, a
double collision `-x3`; and any sequence of requests threaded through one
registry yields pairwise distinct anchors. -/
theorem c1_anchor_uniqueness :
    (∀ da tt st sn reg,
      (make_fullschedule_anchor da tt st sn reg).1 ∉ reg ∧
      (make_fullschedule_anchor da tt st sn reg).2 =
        (make_fullschedule_anchor da tt st sn reg).1 :: reg ∧
      (anchor_base da tt st sn ∉ reg →
        (make_fullschedule_anchor da tt st sn reg).1 = anchor_base da tt st sn) ∧
      (anchor_base da tt st sn ∈ reg →
        anchor_base da tt st sn ++ str "-x2" ∉ reg →
        (make_fullschedule_anchor da tt st sn reg).1 =
          anchor_base da tt st sn ++ str "-x2") ∧
      (anchor_base da tt st sn ∈ reg →
        anchor_base da tt st sn ++ str "-x2" ∈ reg →
        anchor_base da tt st sn ++ str "-x3" ∉ reg →
        (make_fullschedule_anchor da tt st sn reg).1 =
          anchor_base da tt st sn ++ str "-x3")) ∧
    (∀ reqs reg, (issueAnchors reqs reg).1.Nodup ∧
      ∀ a ∈ (issueAnchors reqs reg).1, a ∉ reg) := by
  constructor
  · intro da tt st sn reg
    set base := anchor_base da tt st sn with hbase
    have hcand1 : anchorCand base 1 = base := by simp [anchorCand]
    refine ⟨fresh_not_mem base reg, rfl, ?_, ?_, ?_⟩
    · intro hnm
      show freshFrom base reg 1 (reg.length + 1) = base
      rw [show freshFrom base reg 1 (reg.length + 1) = anchorCand base 1 from by
        simp [freshFrom, hcand1, hnm]]
      exact hcand1
    · intro hmem hnm2
      show freshFrom base reg 1 (reg.length + 1) = base ++ str "-x2"
      obtain ⟨m, hm⟩ : ∃ m, reg.length = m + 1 := by
        have := List.length_pos_of_mem hmem
        exact ⟨reg.length - 1, by omega⟩
      rw [hm]
      rw [show freshFrom base reg 1 (m + 1 + 1) = freshFrom base reg 2 (m + 1) from by
        simp [freshFrom, hcand1, hmem]]
      rw [show freshFrom base reg 2 (m + 1) = anchorCand base 2 from by
        simp [freshFrom, anchorCand_two, hnm2]]
      exact anchorCand_two base
    · intro hmem hmem2 hnm3
      show freshFrom base reg 1 (reg.length + 1) = base ++ str "-x3"
      have hne : base ≠ base ++ str "-x2" := by
        intro h
        have := congrArg List.length h
        simp [str] at this
      obtain ⟨m, hm⟩ : ∃ m, reg.length = m + 2 :=
        ⟨reg.length - 2, by have := two_mem_two_le_length hmem hmem2 hne; omega⟩
      rw [hm]
      rw [show freshFrom base reg 1 (m + 2 + 1) = freshFrom base reg 2 (m + 2) from by
        simp [freshFrom, hcand1, hmem]]
      rw [show freshFrom base reg 2 (m + 2) = freshFrom base reg 3 (m + 1) from by
        simp [freshFrom, anchorCand_two, hmem2]]
      rw [show freshFrom base reg 3 (m + 1) = anchorCand base 3 from by
        simp [freshFrom, anchorCand_three, hnm3]]
      exact anchorCand_three base
  · intro reqs reg
    exact ⟨(issueAnchors_fresh reqs reg).2, (issueAnchors_fresh reqs reg).1⟩

set_option maxRecDepth 100000 in
/-- Witness for claim C1 at concrete inputs: issuing
`(monday, Coffee Break)` against an empty registry yields the base ID;
against a registry already holding the base it yields `-x2`; with both taken
it yields `-x3`. -/
theorem c1_anchor_uniqueness_witness :
    (make_fullschedule_anchor (str "monday") [] (str "Coffee Break") [] []).1 =
      str "monday-coffee-break" ∧
    (make_fullschedule_anchor (str "monday") [] (str "Coffee Break") []
      [str "monday-coffee-break"]).1 = str "monday-coffee-break-x2" ∧
    (make_fullschedule_anchor (str "monday") [] (str "Coffee Break") []
      [str "monday-coffee-break-x2", str "monday-coffee-break"]).1 =
      str "monday-coffee-break-x3" := by
  have h := c1_anchor_uniqueness
  refine ⟨?_, ?_, ?_⟩
  · have h1 := (h.1 (str "monday") [] (str "Coffee Break") [] []).2.2.1
    rw [h1 (by decide)]
    decide
  · have h1 := (h.1 (str "monday") [] (str "Coffee Break") []
      [str "monday-coffee-break"]).2.2.2.1
    rw [h1 (by decide) (by decide)]
    decide
  · have h1 := (h.1 (str "monday") [] (str "Coffee Break") []
      [str "monday-coffee-break-x2", str "monday-coffee-break"]).2.2.2.2
    rw [h1 (by decide) (by decide) (by decide)]
    decide

-- ---------------------------------------------------------------------------
-- Membership lemmas for sorting and grouping
-- ---------------------------------------------------------------------------

lemma mem_insertSorted {α : Type} (lt : α → α → Bool) (y : α) :
    ∀ (l : List α) (x : α), x ∈ insertSorted lt y l ↔ x = y ∨ x ∈ l := by
  intro l
  induction l with
  | nil => intro x; simp [insertSorted]
  | cons z zs ih =>
    intro x
    cases hlt : lt y z with
    | true =>
      simp only [insertSorted, hlt, if_true, List.mem_cons]
    | false =>
      simp only [insertSorted, hlt, Bool.false_eq_true, if_false, List.mem_cons, ih]
      tauto

lemma mem_foldl_insertSorted {α : Type} (lt : α → α → Bool) :
    ∀ (l acc : List α) (x : α),
      x ∈ l.foldl (fun a y => insertSorted lt y a) acc ↔ x ∈ acc ∨ x ∈ l := by
  intro l
  induction l with
  | nil => intro acc x; simp
  | cons z zs ih =>
    intro acc x
    simp only [List.foldl_cons, ih, mem_insertSorted, List.mem_cons]
    tauto

lemma mem_sortByLt {α : Type} (lt : α → α → Bool) (l : List α) (x : α) :
    x ∈ sortByLt lt l ↔ x ∈ l := by
  unfold sortByLt
  rw [mem_foldl_insertSorted]
  simp

lemma addEntry_mem_items {κ α : Type} [DecidableEq κ] (key : α → κ) (y : α) :
    ∀ (bs : List (κ × List α)) (p : κ × List α) (x : α),
      p ∈ addEntry key y bs → x ∈ p.2 → (∃ q ∈ bs, x ∈ q.2) ∨ x = y := by
  intro bs
  induction bs with
  | nil =>
    intro p x hp hx
    simp only [addEntry, List.mem_singleton] at hp
    subst hp
    simp only [List.mem_singleton] at hx
    exact Or.inr hx
  | cons b bs ih =>
    intro p x hp hx
    obtain ⟨k, items⟩ := b
    unfold addEntry at hp
    by_cases hk : key y = k
    · rw [if_pos hk] at hp
      rcases List.mem_cons.mp hp with rfl | hp
      · rcases List.mem_append.mp hx with hx | hx
        · exact Or.inl ⟨(k, items), List.mem_cons_self _ _, hx⟩
        · exact Or.inr (by simpa using hx)
      · exact Or.inl ⟨p, List.mem_cons_of_mem _ hp, hx⟩
    · rw [if_neg hk] at hp
      rcases List.mem_cons.mp hp with rfl | hp
      · exact Or.inl ⟨(k, items), List.mem_cons_self _ _, hx⟩
      · rcases ih p x hp hx with ⟨q, hq, hxq⟩ | hxy
        · exact Or.inl ⟨q, List.mem_cons_of_mem _ hq, hxq⟩
        · exact Or.inr hxy

lemma foldl_addEntry_mem_items {κ α : Type} [DecidableEq κ] (key : α → κ) :
    ∀ (l : List α) (acc : List (κ × List α)) (p : κ × List α) (x : α),
      p ∈ l.foldl (fun a y => addEntry key y a) acc → x ∈ p.2 →
        (∃ q ∈ acc, x ∈ q.2) ∨ x ∈ l := by
  intro l
  induction l with
  | nil =>
    intro acc p x hp hx
    simp only [List.foldl_nil] at hp
    exact Or.inl ⟨p, hp, hx⟩
  | cons z zs ih =>
    intro acc p x hp hx
    simp only [List.foldl_cons] at hp
    rcases ih (addEntry key z acc) p x hp hx with hacc | hxl
    · obtain ⟨q, hq, hxq⟩ := hacc
      rcases addEntry_mem_items key z acc q x hq hxq with ⟨q2, hq2, hxq2⟩ | rfl
      · exact Or.inl ⟨q2, hq2, hxq2⟩
      · exact Or.inr (List.mem_cons_self _ _)
    · exact Or.inr (List.mem_cons_of_mem _ hxl)

lemma groupByKey_mem_items {κ α : Type} [DecidableEq κ] (key : α → κ)
    (l : List α) (p : κ × List α) (x : α)
    (hp : p ∈ groupByKey key l) (hx : x ∈ p.2) : x ∈ l := by
  rcases foldl_addEntry_mem_items key l [] p x hp hx with ⟨q, hq, _⟩ | h
  · simp at hq
  · exact h

-- ---------------------------------------------------------------------------
-- Claim C5: sessions with no usable time are excluded
-- ---------------------------------------------------------------------------

lemma rowSession_has_time {cur : Option PyDate} {r : RawRow} {s : Session}
    (h : rowSession cur r = some s) : ¬ (s.start = none ∧ s.end_ = none) := by
  simp only [rowSession] at h
  split_ifs at h with h1 h2 h3
  · intro hc
    apply h2
    have hs := Option.some.inj h
    rw [← hs] at hc
    exact hc
  · intro hc
    apply h2
    have hs := Option.some.inj h
    rw [← hs] at hc
    exact hc

lemma load_sessions_cons (cur : Option PyDate) (r : RawRow) (rest : List RawRow) :
    load_sessions cur (r :: rest) =
      (match rowSession (stepDate cur r) r with
       | some s0 => s0 :: load_sessions (stepDate cur r) rest
       | none => load_sessions (stepDate cur r) rest) := rfl

lemma load_sessions_has_time :
    ∀ (rows : List RawRow) (cur : Option PyDate) (s : Session),
      s ∈ load_sessions cur rows → ¬ (s.start = none ∧ s.end_ = none) := by
  intro rows
  induction rows with
  | nil => intro cur s h; simp [load_sessions] at h
  | cons r rest ih =>
    intro cur s h
    rw [load_sessions_cons] at h
    cases hrow : rowSession (stepDate cur r) r with
    | none =>
      rw [hrow] at h
      exact ih _ s h
    | some s0 =>
      rw [hrow] at h
      rcases List.mem_cons.mp h with rfl | h
      · exact rowSession_has_time hrow
      · exact ih _ s h

lemma partition_mem_bucket {ss : List Session} {lbl : Str} {b : DayBuckets}
    (h : (lbl, b) ∈ partition_by_day ss) :
    (∀ s ∈ b.morning, s ∈ ss) ∧ (∀ s ∈ b.lunch, s ∈ ss) ∧
      (∀ s ∈ b.afternoon, s ∈ ss) ∧ (∀ s ∈ b.evening, s ∈ ss) := by
  unfold partition_by_day at h
  rw [List.mem_map] at h
  obtain ⟨p, hp, heq⟩ := h
  have hb := congrArg Prod.snd heq
  simp only [] at hb
  rw [← hb]
  refine ⟨?_, ?_, ?_, ?_⟩ <;>
    · intro s hs
      simp only [mem_sortByLt] at hs
      exact groupByKey_mem_items _ ss p s hp (List.mem_of_mem_filter hs)

lemma group_parallel_mem {ss : List Session} {g : List Session} {s : Session}
    (hg : g ∈ group_parallel ss) (hs : s ∈ g) : s ∈ ss := by
  unfold group_parallel group_parallel_keyed at hg
  rw [List.mem_map] at hg
  obtain ⟨p, hp, rfl⟩ := hg
  rw [mem_sortByLt, List.mem_map] at hp
  obtain ⟨q, hq, rfl⟩ := hp
  simp only [mem_sortByLt] at hs
  exact groupByKey_mem_items gkey ss q s hq hs

/-- Claim C5.  A row whose time cell yields neither a start nor an end time
never becomes a session: every loaded session, every session in every
day/time-of-day bucket, and every session in every parallel group of a
bucket has a start or an end time. -/
theorem c5_no_time_excluded (rows : List RawRow) :
    (∀ s ∈ load_sessions none rows, ¬ (s.start = none ∧ s.end_ = none)) ∧
    (∀ lbl b, (lbl, b) ∈ partition_by_day (load_sessions none rows) →
      ∀ s, (s ∈ b.morning ∨ s ∈ b.lunch ∨ s ∈ b.afternoon ∨ s ∈ b.evening) →
        ¬ (s.start = none ∧ s.end_ = none)) ∧
    (∀ lbl b, (lbl, b) ∈ partition_by_day (load_sessions none rows) →
      ∀ g, (g ∈ group_parallel b.morning ∨ g ∈ group_parallel b.lunch ∨
            g ∈ group_parallel b.afternoon ∨ g ∈ group_parallel b.evening) →
        ∀ s ∈ g, ¬ (s.start = none ∧ s.end_ = none)) := by
  refine ⟨fun s h => load_sessions_has_time rows none s h, ?_, ?_⟩
  · intro lbl b hb s hs
    obtain ⟨h1, h2, h3, h4⟩ := partition_mem_bucket hb
    rcases hs with hs | hs | hs | hs
    · exact load_sessions_has_time rows none s (h1 s hs)
    · exact load_sessions_has_time rows none s (h2 s hs)
    · exact load_sessions_has_time rows none s (h3 s hs)
    · exact load_sessions_has_time rows none s (h4 s hs)
  · intro lbl b hb g hg s hs
    obtain ⟨h1, h2, h3, h4⟩ := partition_mem_bucket hb
    rcases hg with hg | hg | hg | hg
    · exact load_sessions_has_time rows none s (h1 s (group_parallel_mem hg hs))
    · exact load_sessions_has_time rows none s (h2 s (group_parallel_mem hg hs))
    · exact load_sessions_has_time rows none s (h3 s (group_parallel_mem hg hs))
    · exact load_sessions_has_time rows none s (h4 s (group_parallel_mem hg hs))

set_option maxRecDepth 100000 in
/-- Witness for claim C5 at the concrete day bucket of `c2row`: its session
sits in the morning bucket and indeed has a time. -/
theorem c5_no_time_excluded_witness :
    (str "Monday, Oct. 27",
        (⟨str "Monday, Oct. 27", [c2sess], [], [], []⟩ : DayBuckets))
      ∈ partition_by_day (load_sessions none [c2row]) ∧
    ¬ (c2sess.start = none ∧ c2sess.end_ = none) := by
  have hmem : (str "Monday, Oct. 27",
      (⟨str "Monday, Oct. 27", [c2sess], [], [], []⟩ : DayBuckets))
      ∈ partition_by_day (load_sessions none [c2row]) := by decide
  refine ⟨hmem, ?_⟩
  exact (c5_no_time_excluded [c2row]).2.1 _ _ hmem c2sess (Or.inl (by decide))

-- ---------------------------------------------------------------------------
-- Order lemmas for the sort keys (claim C6)
-- ---------------------------------------------------------------------------

lemma strLt_irrefl : ∀ s : Str, strLt s s = false := by
  intro s
  induction s with
  | nil => rfl
  | cons a as ih => simp [strLt, ih]

lemma strLt_trans :
    ∀ a b c : Str, strLt a b = true → strLt b c = true → strLt a c = true := by
  intro a
  induction a with
  | nil =>
    intro b c h1 h2
    cases b with
    | nil => simp [strLt] at h1
    | cons y bs =>
      cases c with
      | nil => simp [strLt] at h2
      | cons z cs => rfl
  | cons x as ih =>
    intro b c h1 h2
    cases b with
    | nil => simp [strLt] at h1
    | cons y bs =>
      cases c with
      | nil => simp [strLt] at h2
      | cons z cs =>
        unfold strLt at h1 h2 ⊢
        rcases Nat.lt_trichotomy x.toNat y.toNat with hxy | hxy | hxy
        · rcases Nat.lt_trichotomy y.toNat z.toNat with hyz | hyz | hyz
          · simp [show x.toNat < z.toNat from lt_trans hxy hyz]
          · simp [show x.toNat < z.toNat from hyz ▸ hxy]
          · rw [if_neg (by omega), if_pos (by omega)] at h2
            exact absurd h2 (by simp)
        · rw [if_neg (by omega), if_neg (by omega)] at h1
          rcases Nat.lt_trichotomy y.toNat z.toNat with hyz | hyz | hyz
          · simp [show x.toNat < z.toNat from hxy ▸ hyz]
          · rw [if_neg (by omega), if_neg (by omega)] at h2
            rw [if_neg (by omega), if_neg (by omega)]
            exact ih bs cs h1 h2
          · rw [if_neg (by omega), if_pos (by omega)] at h2
            exact absurd h2 (by simp)
        · rw [if_neg (by omega), if_pos (by omega)] at h1
          exact absurd h1 (by simp)

lemma lexIf_trans {σ α : Type} [DecidableEq α] (f : σ → α) (ltA : α → α → Bool)
    (r : σ → σ → Bool)
    (hAt : ∀ x y z, ltA x y = true → ltA y z = true → ltA x z = true)
    (hAi : ∀ x, ltA x x = false)
    (hrt : ∀ a b c, r a b = true → r b c = true → r a c = true) :
    ∀ a b c, (if f a ≠ f b then ltA (f a) (f b) else r a b) = true →
      (if f b ≠ f c then ltA (f b) (f c) else r b c) = true →
      (if f a ≠ f c then ltA (f a) (f c) else r a c) = true := by
  intro a b c h1 h2
  by_cases hab : f a = f b <;> by_cases hbc : f b = f c
  · rw [if_neg (by rw [hab, hbc]; simp)]
    rw [if_neg (by simp [hab])] at h1
    rw [if_neg (by simp [hbc])] at h2
    exact hrt a b c h1 h2
  · rw [if_pos (by rw [hab]; exact hbc)]
    rw [if_pos hbc] at h2
    rw [hab]
    exact h2
  · rw [if_pos (fun he => hab (he.trans hbc.symm))]
    rw [if_pos hab] at h1
    rw [← hbc]
    exact h1
  · rw [if_pos hab] at h1
    rw [if_pos hbc] at h2
    have hlt := hAt _ _ _ h1 h2
    have hac : f a ≠ f c := by
      intro he
      have := hAt _ _ _ h2 (he ▸ h1)
      rw [hAi] at this
      exact absurd this (by simp)
    rw [if_pos hac]
    exact hlt

lemma lexIf_irrefl {σ α : Type} [DecidableEq α] (f : σ → α) (ltA : α → α → Bool)
    (r : σ → σ → Bool) (hri : ∀ a, r a a = false) :
    ∀ a, (if f a ≠ f a then ltA (f a) (f a) else r a a) = false := by
  intro a
  rw [if_neg (by simp)]
  exact hri a

lemma cntLt_inner_trans :
    ∀ a b c : Session,
      (if a.name ≠ b.name then strLt a.name b.name else strLt a.title b.title) = true →
      (if b.name ≠ c.name then strLt b.name c.name else strLt b.title c.title) = true →
      (if a.name ≠ c.name then strLt a.name c.name else strLt a.title c.title) = true :=
  lexIf_trans (fun s : Session => s.name) strLt
    (fun a b : Session => strLt a.title b.title)
    strLt_trans strLt_irrefl
    (fun a b c : Session => strLt_trans a.title b.title c.title)

lemma cntLt_trans :
    ∀ a b c : Session, cntLt a b = true → cntLt b c = true → cntLt a c = true :=
  lexIf_trans (fun s : Session => s.code) strLt
    (fun a b : Session =>
      if a.name ≠ b.name then strLt a.name b.name else strLt a.title b.title)
    strLt_trans strLt_irrefl cntLt_inner_trans

lemma cntLt_irrefl : ∀ a : Session, cntLt a a = false := by
  intro a
  unfold cntLt
  rw [if_neg (by simp), if_neg (by simp)]
  exact strLt_irrefl a.title

lemma cntLt_asym : ∀ a b : Session, cntLt a b = true → cntLt b a = false := by
  intro a b h
  by_contra hc
  have hba : cntLt b a = true := by
    cases hcb : cntLt b a
    · exact absurd hcb hc
    · rfl
  have := cntLt_trans a b a h hba
  rw [cntLt_irrefl] at this
  exact absurd this (by simp)

lemma keyPairLt_trans :
    ∀ a b c : Str × Str, keyPairLt a b = true → keyPairLt b c = true →
      keyPairLt a c = true :=
  lexIf_trans (fun p : Str × Str => p.1) strLt
    (fun a b : Str × Str => strLt a.2 b.2)
    strLt_trans strLt_irrefl
    (fun a b c : Str × Str => strLt_trans a.2 b.2 c.2)

lemma keyPairLt_irrefl : ∀ a : Str × Str, keyPairLt a a = false := by
  intro a
  unfold keyPairLt
  rw [if_neg (by simp)]
  exact strLt_irrefl a.2

lemma keyPairLt_asym :
    ∀ a b : Str × Str, keyPairLt a b = true → keyPairLt b a = false := by
  intro a b h
  by_contra hc
  have hba : keyPairLt b a = true := by
    cases hcb : keyPairLt b a
    · exact absurd hcb hc
    · rfl
  have := keyPairLt_trans a b a h hba
  rw [keyPairLt_irrefl] at this
  exact absurd this (by simp)

-- ---------------------------------------------------------------------------
-- Sortedness and permutation properties of `sortByLt` (claim C6)
-- ---------------------------------------------------------------------------

lemma insertSorted_perm {α : Type} (lt : α → α → Bool) (x : α) :
    ∀ l : List α, (insertSorted lt x l).Perm (x :: l) := by
  intro l
  induction l with
  | nil => exact List.Perm.refl _
  | cons y ys ih =>
    unfold insertSorted
    by_cases h : lt x y
    · simp only [h, if_true]
      exact List.Perm.refl _
    · simp only [h, Bool.false_eq_true, if_false]
      exact (List.Perm.cons y ih).trans (List.Perm.swap x y ys)

lemma sortByLt_perm {α : Type} (lt : α → α → Bool) :
    ∀ (l acc : List α), (l.foldl (fun a y => insertSorted lt y a) acc).Perm (acc ++ l) := by
  intro l
  induction l with
  | nil => intro acc; simp
  | cons z zs ih =>
    intro acc
    simp only [List.foldl_cons]
    have h1 := ih (insertSorted lt z acc)
    have h2 : (insertSorted lt z acc ++ zs).Perm ((z :: acc) ++ zs) :=
      (insertSorted_perm lt z acc).append_right zs
    have h3 : ((z :: acc) ++ zs).Perm (acc ++ z :: zs) := by
      simp only [List.cons_append]
      exact (List.perm_middle).symm
    exact (h1.trans h2).trans h3

lemma sortByLt_perm_self {α : Type} (lt : α → α → Bool) (l : List α) :
    (sortByLt lt l).Perm l := by
  have := sortByLt_perm lt l []
  simpa using this

lemma insertSorted_pairwise {α : Type} (lt : α → α → Bool)
    (htrans : ∀ a b c, lt a b = true → lt b c = true → lt a c = true)
    (hasym : ∀ a b, lt a b = true → lt b a = false) (x : α) :
    ∀ l : List α, l.Pairwise (fun a b => lt b a = false) →
      (insertSorted lt x l).Pairwise (fun a b => lt b a = false) := by
  intro l
  induction l with
  | nil => intro _; simp [insertSorted]
  | cons y ys ih =>
    intro hp
    rw [List.pairwise_cons] at hp
    obtain ⟨hy, hys⟩ := hp
    unfold insertSorted
    by_cases h : lt x y
    · simp only [h, if_true]
      rw [List.pairwise_cons]
      constructor
      · intro z hz
        rcases List.mem_cons.mp hz with rfl | hz
        · exact hasym x z h
        · cases hzx : lt z x
          · rfl
          · have hzy := htrans z x y hzx h
            rw [hy z hz] at hzy
            exact absurd hzy (by simp)
      · rw [List.pairwise_cons]
        exact ⟨hy, hys⟩
    · simp only [h, Bool.false_eq_true, if_false]
      rw [List.pairwise_cons]
      constructor
      · intro z hz
        rcases (mem_insertSorted lt x ys z).mp hz with rfl | hz
        · cases hq : lt z y
          · rfl
          · exact absurd hq (by simp [h])
        · exact hy z hz
      · exact ih hys

lemma sortByLt_pairwise {α : Type} (lt : α → α → Bool)
    (htrans : ∀ a b c, lt a b = true → lt b c = true → lt a c = true)
    (hasym : ∀ a b, lt a b = true → lt b a = false) :
    ∀ (l acc : List α), acc.Pairwise (fun a b => lt b a = false) →
      (l.foldl (fun a y => insertSorted lt y a) acc).Pairwise
        (fun a b => lt b a = false) := by
  intro l
  induction l with
  | nil => intro acc h; simpa using h
  | cons z zs ih =>
    intro acc h
    simp only [List.foldl_cons]
    exact ih _ (insertSorted_pairwise lt htrans hasym z acc h)

lemma sortByLt_pairwise_self {α : Type} (lt : α → α → Bool)
    (htrans : ∀ a b c, lt a b = true → lt b c = true → lt a c = true)
    (hasym : ∀ a b, lt a b = true → lt b a = false) (l : List α) :
    (sortByLt lt l).Pairwise (fun a b => lt b a = false) :=
  sortByLt_pairwise lt htrans hasym l [] (by simp)

-- ---------------------------------------------------------------------------
-- Structural invariants of `groupByKey` (claim C6)
-- ---------------------------------------------------------------------------

lemma addEntry_homog {κ α : Type} [DecidableEq κ] (key : α → κ) (y : α) :
    ∀ bs : List (κ × List α), (∀ p ∈ bs, ∀ x ∈ p.2, key x = p.1) →
      ∀ p ∈ addEntry key y bs, ∀ x ∈ p.2, key x = p.1 := by
  intro bs
  induction bs with
  | nil =>
    intro _ p hp x hx
    simp only [addEntry, List.mem_singleton] at hp
    subst hp
    simp only [List.mem_singleton] at hx
    subst hx
    rfl
  | cons b bs ih =>
    intro hinv p hp x hx
    obtain ⟨k, items⟩ := b
    unfold addEntry at hp
    by_cases hk : key y = k
    · rw [if_pos hk] at hp
      rcases List.mem_cons.mp hp with rfl | hp
      · rcases List.mem_append.mp hx with hx | hx
        · exact hinv (k, items) (List.mem_cons_self _ _) x hx
        · simp only [List.mem_singleton] at hx
          subst hx
          exact hk
      · exact hinv p (List.mem_cons_of_mem _ hp) x hx
    · rw [if_neg hk] at hp
      rcases List.mem_cons.mp hp with rfl | hp
      · exact hinv (k, items) (List.mem_cons_self _ _) x hx
      · exact ih (fun q hq => hinv q (List.mem_cons_of_mem _ hq)) p hp x hx

lemma addEntry_keys {κ α : Type} [DecidableEq κ] (key : α → κ) (y : α) :
    ∀ bs : List (κ × List α),
      (addEntry key y bs).map Prod.fst =
        (if key y ∈ bs.map Prod.fst then bs.map Prod.fst
         else bs.map Prod.fst ++ [key y]) := by
  intro bs
  induction bs with
  | nil => simp [addEntry]
  | cons b bs ih =>
    obtain ⟨k, items⟩ := b
    unfold addEntry
    by_cases hk : key y = k
    · rw [if_pos hk]
      simp [hk]
    · rw [if_neg hk]
      simp only [List.map_cons, List.mem_cons]
      rw [ih]
      by_cases hmem : key y ∈ bs.map Prod.fst
      · simp [hmem, hk]
      · rw [if_neg hmem, if_neg (not_or.mpr ⟨hk, hmem⟩)]
        simp

lemma addEntry_keys_nodup {κ α : Type} [DecidableEq κ] (key : α → κ) (y : α)
    (bs : List (κ × List α)) (h : (bs.map Prod.fst).Nodup) :
    ((addEntry key y bs).map Prod.fst).Nodup := by
  rw [addEntry_keys]
  by_cases hmem : key y ∈ bs.map Prod.fst
  · rwa [if_pos hmem]
  · rw [if_neg hmem]
    rw [List.nodup_append]
    exact ⟨h, List.nodup_singleton _, by simpa using hmem⟩

lemma groupByKey_keys_nodup {κ α : Type} [DecidableEq κ] (key : α → κ) :
    ∀ (l : List α) (acc : List (κ × List α)), (acc.map Prod.fst).Nodup →
      ((l.foldl (fun a y => addEntry key y a) acc).map Prod.fst).Nodup := by
  intro l
  induction l with
  | nil => intro acc h; simpa using h
  | cons z zs ih =>
    intro acc h
    simp only [List.foldl_cons]
    exact ih _ (addEntry_keys_nodup key z acc h)

lemma groupByKey_homog {κ α : Type} [DecidableEq κ] (key : α → κ) :
    ∀ (l : List α) (acc : List (κ × List α)),
      (∀ p ∈ acc, ∀ x ∈ p.2, key x = p.1) →
      ∀ p ∈ l.foldl (fun a y => addEntry key y a) acc, ∀ x ∈ p.2, key x = p.1 := by
  intro l
  induction l with
  | nil => intro acc h; simpa using h
  | cons z zs ih =>
    intro acc h
    simp only [List.foldl_cons]
    exact ih _ (addEntry_homog key z acc h)

lemma addEntry_complete_new {κ α : Type} [DecidableEq κ] (key : α → κ) (y : α) :
    ∀ bs : List (κ × List α), ∃ p ∈ addEntry key y bs, y ∈ p.2 := by
  intro bs
  induction bs with
  | nil => exact ⟨(key y, [y]), List.mem_singleton.mpr rfl, by simp⟩
  | cons b bs ih =>
    obtain ⟨k, items⟩ := b
    unfold addEntry
    by_cases hk : key y = k
    · rw [if_pos hk]
      exact ⟨(k, items ++ [y]), List.mem_cons_self _ _, by simp⟩
    · rw [if_neg hk]
      obtain ⟨p, hp, hy⟩ := ih
      exact ⟨p, List.mem_cons_of_mem _ hp, hy⟩

lemma addEntry_complete_old {κ α : Type} [DecidableEq κ] (key : α → κ) (y x : α)
    (bs : List (κ × List α)) (h : ∃ p ∈ bs, x ∈ p.2) :
    ∃ p ∈ addEntry key y bs, x ∈ p.2 := by
  induction bs with
  | nil => simp at h
  | cons b bs ih =>
    obtain ⟨k, items⟩ := b
    obtain ⟨p, hp, hx⟩ := h
    unfold addEntry
    by_cases hk : key y = k
    · rw [if_pos hk]
      rcases List.mem_cons.mp hp with rfl | hp
      · exact ⟨(k, items ++ [y]), List.mem_cons_self _ _, List.mem_append_left _ hx⟩
      · exact ⟨p, List.mem_cons_of_mem _ hp, hx⟩
    · rw [if_neg hk]
      rcases List.mem_cons.mp hp with rfl | hp
      · exact ⟨(k, items), List.mem_cons_self _ _, hx⟩
      · obtain ⟨q, hq, hxq⟩ := ih ⟨p, hp, hx⟩
        exact ⟨q, List.mem_cons_of_mem _ hq, hxq⟩

lemma groupByKey_complete {κ α : Type} [DecidableEq κ] (key : α → κ) :
    ∀ (l : List α) (acc : List (κ × List α)) (x : α),
      ((∃ p ∈ acc, x ∈ p.2) ∨ x ∈ l) →
      ∃ p ∈ l.foldl (fun a y => addEntry key y a) acc, x ∈ p.2 := by
  intro l
  induction l with
  | nil =>
    intro acc x h
    rcases h with h | h
    · simpa using h
    · simp at h
  | cons z zs ih =>
    intro acc x h
    simp only [List.foldl_cons]
    rcases h with h | h
    · exact ih _ x (Or.inl (addEntry_complete_old key z x acc h))
    · rcases List.mem_cons.mp h with rfl | h
      · exact ih _ x (Or.inl (addEntry_complete_new key x acc))
      · exact ih _ x (Or.inr h)

-- ---------------------------------------------------------------------------
-- Injectivity of the `"%H:%M"` group key (claim C6)
-- ---------------------------------------------------------------------------

lemma isDigit_ne_colon {c : Char} (h : c.isDigit = true) : c ≠ ':' := by
  intro he
  rw [he] at h
  exact absurd h (by decide)

lemma append_sep_inj (sep : Char) :
    ∀ (a1 a2 b1 b2 : Str), (∀ c ∈ a1, c ≠ sep) → (∀ c ∈ a2, c ≠ sep) →
      a1 ++ sep :: b1 = a2 ++ sep :: b2 → a1 = a2 ∧ b1 = b2 := by
  intro a1
  induction a1 with
  | nil =>
    intro a2 b1 b2 _ h2 h
    cases a2 with
    | nil => simpa using h
    | cons c cs =>
      simp only [List.nil_append, List.cons_append, List.cons.injEq] at h
      exact absurd h.1.symm (h2 c (List.mem_cons_self _ _))
  | cons c cs ih =>
    intro a2 b1 b2 h1 h2 h
    cases a2 with
    | nil =>
      simp only [List.nil_append, List.cons_append, List.cons.injEq] at h
      exact absurd h.1 (h1 c (List.mem_cons_self _ _))
    | cons d ds =>
      simp only [List.cons_append, List.cons.injEq] at h
      obtain ⟨rfl, h⟩ := h
      obtain ⟨ha, hb⟩ := ih ds b1 b2 (fun x hx => h1 x (List.mem_cons_of_mem _ hx))
        (fun x hx => h2 x (List.mem_cons_of_mem _ hx)) h
      exact ⟨by rw [ha], hb⟩

lemma fmtHHMM_inj : ∀ t1 t2 : Nat × Nat, fmtHHMM t1 = fmtHHMM t2 → t1 = t2 := by
  intro t1 t2 h
  unfold fmtHHMM at h
  obtain ⟨h1, h2⟩ := append_sep_inj ':' (pad2 t1.1) (pad2 t2.1) (pad2 t1.2) (pad2 t2.2)
    (fun c hc => isDigit_ne_colon (pad2_isDigit _ c hc))
    (fun c hc => isDigit_ne_colon (pad2_isDigit _ c hc)) h
  have e1 := pad2_inj _ _ h1
  have e2 := pad2_inj _ _ h2
  exact Prod.ext e1 e2

-- ---------------------------------------------------------------------------
-- Claim C6: parallel grouping
-- ---------------------------------------------------------------------------

lemma keyed_homog (ss : List Session) :
    ∀ p ∈ group_parallel_keyed ss, ∀ s ∈ p.2, gkey s = p.1 := by
  intro p hp s hs
  unfold group_parallel_keyed at hp
  rw [mem_sortByLt, List.mem_map] at hp
  obtain ⟨q, hq, rfl⟩ := hp
  simp only [mem_sortByLt] at hs
  exact groupByKey_homog gkey ss [] (by simp) q hq s hs

lemma keyed_keys_nodup (ss : List Session) :
    ((group_parallel_keyed ss).map Prod.fst).Nodup := by
  unfold group_parallel_keyed
  have hperm := (sortByLt_perm_self (fun p q => keyPairLt p.1 q.1)
    ((groupByKey gkey ss).map (fun p => (p.1, sortByLt cntLt p.2)))).map Prod.fst
  rw [hperm.nodup_iff]
  rw [List.map_map]
  have : (Prod.fst ∘ fun p : (Str × Str) × List Session =>
      (p.1, sortByLt cntLt p.2)) = Prod.fst := by
    funext p
    rfl
  rw [this]
  exact groupByKey_keys_nodup gkey ss [] (by simp)

lemma keyed_complete (ss : List Session) :
    ∀ s ∈ ss, ∃ p ∈ group_parallel_keyed ss, s ∈ p.2 := by
  intro s hs
  obtain ⟨q, hq, hsq⟩ := groupByKey_complete gkey ss [] s (Or.inr hs)
  refine ⟨(q.1, sortByLt cntLt q.2), ?_, ?_⟩
  · unfold group_parallel_keyed
    rw [mem_sortByLt, List.mem_map]
    exact ⟨q, hq, rfl⟩
  · simp only [mem_sortByLt]
    exact hsq

lemma keyed_entry_unique (ss : List Session) :
    ∀ p ∈ group_parallel_keyed ss, ∀ q ∈ group_parallel_keyed ss,
      p.1 = q.1 → p = q :=
  fun p hp q hq h => List.inj_on_of_nodup_map (keyed_keys_nodup ss) hp hq h

/-- Claim C6.  `group_parallel`: every session lands in a group; all
sessions of one group share the `(HH:MM, HH:MM)` key; sessions with the same
key always share the same single group; two sessions whose (present) end
times differ never share a group; within a group the sessions are ordered by
`(code, name, title)`; and the groups are ordered by their `(start, end)`
key ascending. -/
theorem c6_group_parallel (ss : List Session) :
    (∀ s ∈ ss, ∃ g, g ∈ group_parallel ss ∧ s ∈ g) ∧
    (∀ g ∈ group_parallel ss, ∀ s1 ∈ g, ∀ s2 ∈ g, gkey s1 = gkey s2) ∧
    (∀ g1 ∈ group_parallel ss, ∀ g2 ∈ group_parallel ss,
      ∀ s1 ∈ g1, ∀ s2 ∈ g2, gkey s1 = gkey s2 → g1 = g2) ∧
    (∀ g ∈ group_parallel ss, ∀ s1 ∈ g, ∀ s2 ∈ g, ∀ e1 e2,
      s1.end_ = some e1 → s2.end_ = some e2 → e1 = e2) ∧
    (∀ g ∈ group_parallel ss, g.Pairwise (fun a b => cntLt b a = false)) ∧
    (group_parallel_keyed ss).Pairwise (fun p q => keyPairLt q.1 p.1 = false) := by
  have hmem_entry : ∀ g ∈ group_parallel ss, ∃ p ∈ group_parallel_keyed ss, p.2 = g := by
    intro g hg
    unfold group_parallel at hg
    rw [List.mem_map] at hg
    obtain ⟨p, hp, rfl⟩ := hg
    exact ⟨p, hp, rfl⟩
  refine ⟨?_, ?_, ?_, ?_, ?_, ?_⟩
  · intro s hs
    obtain ⟨p, hp, hsp⟩ := keyed_complete ss s hs
    refine ⟨p.2, ?_, hsp⟩
    unfold group_parallel
    rw [List.mem_map]
    exact ⟨p, hp, rfl⟩
  · intro g hg s1 h1 s2 h2
    obtain ⟨p, hp, rfl⟩ := hmem_entry g hg
    rw [keyed_homog ss p hp s1 h1, keyed_homog ss p hp s2 h2]
  · intro g1 hg1 g2 hg2 s1 h1 s2 h2 hk
    obtain ⟨p1, hp1, rfl⟩ := hmem_entry g1 hg1
    obtain ⟨p2, hp2, rfl⟩ := hmem_entry g2 hg2
    have e1 := keyed_homog ss p1 hp1 s1 h1
    have e2 := keyed_homog ss p2 hp2 s2 h2
    have : p1 = p2 := keyed_entry_unique ss p1 hp1 p2 hp2 (by rw [← e1, ← e2, hk])
    rw [this]
  · intro g hg s1 h1 s2 h2 e1 e2 he1 he2
    obtain ⟨p, hp, rfl⟩ := hmem_entry g hg
    have k1 := keyed_homog ss p hp s1 h1
    have k2 := keyed_homog ss p hp s2 h2
    have : gkey s1 = gkey s2 := by rw [k1, k2]
    unfold gkey at this
    have hsnd := congrArg Prod.snd this
    simp only [] at hsnd
    have := fmtHHMM_inj _ _ hsnd
    rw [he1, he2] at this
    simpa [timOr0] using this
  · intro g hg
    obtain ⟨p, hp, rfl⟩ := hmem_entry g hg
    unfold group_parallel_keyed at hp
    rw [mem_sortByLt, List.mem_map] at hp
    obtain ⟨q, hq, rfl⟩ := hp
    exact sortByLt_pairwise_self cntLt cntLt_trans cntLt_asym q.2
  · unfold group_parallel_keyed
    exact sortByLt_pairwise_self
      (fun p q : (Str × Str) × List Session => keyPairLt p.1 q.1)
      (fun a b c h1 h2 => keyPairLt_trans a.1 b.1 c.1 h1 h2)
      (fun a b h => keyPairLt_asym a.1 b.1 h) _

set_option maxRecDepth 100000 in
/-- Witness for claim C6: the concrete session of `c2row` lands in a
parallel group of the singleton list. -/
theorem c6_group_parallel_witness :
    ∃ g, g ∈ group_parallel [c2sess] ∧ c2sess ∈ g :=
  (c6_group_parallel [c2sess]).1 c2sess (by decide)

-- ---------------------------------------------------------------------------
-- Claim C7: shape of the 24-hour anchor token
-- ---------------------------------------------------------------------------

/-- Numeric value of a digit string (most significant first). -/
def digitsVal (s : Str) : Nat := s.foldl (fun acc c => 10 * acc + dval c) 0

lemma dval_digitChar : ∀ d, d < 10 → dval (Nat.digitChar d) = d := by decide

lemma toDigitsRev_one_digit : ∀ fuel n, 1 ≤ n → n < 10 → n ≤ fuel →
    toDigitsRev fuel n = [n] := by
  intro fuel n h1 h2 h3
  rcases fuel with _ | fuel
  · omega
  · have hn : n ≠ 0 := by omega
    have hd : n / 10 = 0 := Nat.div_eq_of_lt h2
    simp only [toDigitsRev, hn, if_false, hd]
    rcases fuel with _ | fuel
    · simp [toDigitsRev, Nat.mod_eq_of_lt h2]
    · simp [toDigitsRev, Nat.mod_eq_of_lt h2]

lemma toDigitsRev_two_digit : ∀ fuel n, 10 ≤ n → n ≤ 99 → n ≤ fuel →
    toDigitsRev fuel n = [n % 10, n / 10] := by
  intro fuel n h1 h2 h3
  rcases fuel with _ | fuel
  · omega
  · have hn : n ≠ 0 := by omega
    simp only [toDigitsRev, hn, if_false]
    rw [toDigitsRev_one_digit fuel (n / 10) (by omega) (by omega) (by omega)]

lemma pad2_eq_digits (n : Nat) (h : n ≤ 99) :
    pad2 n = [Nat.digitChar (n / 10), Nat.digitChar (n % 10)] := by
  unfold pad2 natRepr
  by_cases hn : n < 10
  · rw [if_pos hn]
    by_cases h0 : n = 0
    · subst h0; rfl
    · rw [if_neg h0]
      rw [toDigitsRev_one_digit n n (by omega) hn (le_refl n)]
      have h10 : n / 10 = 0 := Nat.div_eq_of_lt hn
      have hm : n % 10 = n := Nat.mod_eq_of_lt hn
      have hdz : Nat.digitChar 0 = '0' := rfl
      simp [h10, hm, hdz]
  · rw [if_neg hn, if_neg (by omega)]
    rw [toDigitsRev_two_digit n n (by omega) h (le_refl n)]
    simp

lemma pad2_length (n : Nat) (h : n ≤ 99) : (pad2 n).length = 2 := by
  rw [pad2_eq_digits n h]
  rfl

lemma digitsVal_pad2_pad2 (a b : Nat) (ha : a ≤ 99) (hb : b ≤ 99) :
    digitsVal (pad2 a ++ pad2 b) = ((a * 100) + b) := by
  rw [pad2_eq_digits a ha, pad2_eq_digits b hb]
  unfold digitsVal
  simp only [List.cons_append, List.nil_append, List.foldl_cons, List.foldl_nil]
  rw [dval_digitChar _ (Nat.mod_lt _ (by omega)), dval_digitChar _ (by omega),
    dval_digitChar _ (Nat.mod_lt _ (by omega)), dval_digitChar _ (by omega)]
  have h1 : a / 10 * 10 + a % 10 = a := by omega
  have h2 : b / 10 * 10 + b % 10 = b := by omega
  ring_nf
  omega

lemma to24Hour_le_23 (hh : Nat) (mer : Option Mer)
    (hnone : mer = none → hh ≤ 23) (hsome : ∀ m, mer = some m → hh ≤ 12) :
    to24Hour hh mer ≤ 23 := by
  cases mer with
  | none => simpa [to24Hour] using hnone rfl
  | some m =>
    have := hsome m rfl
    cases m with
    | am =>
      simp only [to24Hour]
      by_cases h12 : hh = 12
      · simp [h12]
      · rw [if_neg h12]; omega
    | pm =>
      simp only [to24Hour]
      by_cases h12 : hh = 12
      · simp [h12]
      · rw [if_neg h12]; omega

lemma half_token_spec (hh mm : Nat) (mer : Option Mer)
    (hnone : mer = none → hh ≤ 23) (hsome : ∀ m, mer = some m → hh ≤ 12) :
    (pad2 (to24Hour hh mer) ++ pad2 (min mm 59)).length = 4 ∧
    (∀ c ∈ pad2 (to24Hour hh mer) ++ pad2 (min mm 59), c.isDigit = true) ∧
    digitsVal (pad2 (to24Hour hh mer) ++ pad2 (min mm 59)) ≤ 2359 := by
  have hle := to24Hour_le_23 hh mer hnone hsome
  have hmin : min mm 59 ≤ 59 := min_le_right _ _
  refine ⟨?_, ?_, ?_⟩
  · rw [List.length_append, pad2_length _ (by omega), pad2_length _ (by omega)]
  · intro c hc
    rcases List.mem_append.mp hc with hc | hc
    · exact pad2_isDigit _ c hc
    · exact pad2_isDigit _ c hc
  · rw [digitsVal_pad2_pad2 _ _ (by omega) (by omega)]
    omega

/-- Claim C7.  For every time-range string that splits into two sides and
whose two sides (after meridiem inheritance) parse as times in valid ranges
— hours 1–12 with an AM/PM marker, 0–23 without — the anchor token has
exactly length 9 in the shape `HHMM-HHMM`, and each four-digit half denotes
a value in `[0, 2359]`. -/
theorem c7_token_shape (s l r : Str) (h1 m1 h2 m2 : Nat) (mer1 mer2 : Option Mer)
    (hne : trim s ≠ []) (htbd : upperStr (trim s) ≠ str "TBD")
    (hsplit : (splitOnDashChars (trim s)).map trim = [l, r])
    (hp1 : parseSingleRaw (lowerStr (trim (inheritedStart l r))) = some (h1, m1, mer1))
    (hp2 : parseSingleRaw (lowerStr (trim r)) = some (h2, m2, mer2))
    (hn1 : mer1 = none → h1 ≤ 23) (hs1 : ∀ m, mer1 = some m → h1 ≤ 12)
    (hn2 : mer2 = none → h2 ≤ 23) (hs2 : ∀ m, mer2 = some m → h2 ≤ 12) :
    ∃ a b, time_range_token_from_display s = a ++ '-' :: b ∧
      (time_range_token_from_display s).length = 9 ∧
      a.length = 4 ∧ b.length = 4 ∧
      (∀ c ∈ a, c.isDigit = true) ∧ (∀ c ∈ b, c.isDigit = true) ∧
      digitsVal a ≤ 2359 ∧ digitsVal b ≤ 2359 := by
  have htok1 : _parse_single_time_to_24h_token (inheritedStart l r) =
      some (pad2 (to24Hour h1 mer1) ++ pad2 (min m1 59)) := by
    unfold _parse_single_time_to_24h_token
    rw [hp1]
    rfl
  have htok2 : _parse_single_time_to_24h_token r =
      some (pad2 (to24Hour h2 mer2) ++ pad2 (min m2 59)) := by
    unfold _parse_single_time_to_24h_token
    rw [hp2]
    rfl
  have htoken : time_range_token_from_display s =
      (pad2 (to24Hour h1 mer1) ++ pad2 (min m1 59)) ++ '-' ::
        (pad2 (to24Hour h2 mer2) ++ pad2 (min m2 59)) := by
    simp only [time_range_token_from_display, if_neg hne, if_neg htbd, hsplit,
      htok1, htok2]
  obtain ⟨hl1, hd1, hv1⟩ := half_token_spec h1 m1 mer1 hn1 hs1
  obtain ⟨hl2, hd2, hv2⟩ := half_token_spec h2 m2 mer2 hn2 hs2
  refine ⟨_, _, htoken, ?_, hl1, hl2, hd1, hd2, hv1, hv2⟩
  rw [htoken, List.length_append, List.length_cons, hl1, hl2]

set_option maxRecDepth 100000 in
/-- Witness for claim C7 at `"9:00 AM - 10:45 AM"`: the token is
`0900-1045`. -/
theorem c7_token_shape_witness :
    ∃ a b, time_range_token_from_display (str "9:00 AM - 10:45 AM") = a ++ '-' :: b ∧
      (time_range_token_from_display (str "9:00 AM - 10:45 AM")).length = 9 ∧
      a.length = 4 ∧ b.length = 4 ∧
      (∀ c ∈ a, c.isDigit = true) ∧ (∀ c ∈ b, c.isDigit = true) ∧
      digitsVal a ≤ 2359 ∧ digitsVal b ≤ 2359 := by
  refine c7_token_shape (str "9:00 AM - 10:45 AM") (str "9:00 AM") (str "10:45 AM")
    9 0 10 45 (some Mer.am) (some Mer.am) (by decide) (by decide) (by decide)
    (by decide) (by decide) (by decide) (by decide) (by decide) (by decide)

-- ---------------------------------------------------------------------------
-- Claim C8: fatal column-detection errors and exit codes
-- ---------------------------------------------------------------------------

lemma nil_isPrefixOf (l : Str) : List.isPrefixOf ([] : Str) l = true := by
  cases l <;> rfl

lemma isPrefixOf_refl : ∀ l : Str, List.isPrefixOf l l = true := by
  intro l
  induction l with
  | nil => rfl
  | cons c rest ih => simp [List.isPrefixOf, ih]

lemma isPrefixOf_append_right {n h : Str} (post : Str)
    (hp : List.isPrefixOf n h = true) : List.isPrefixOf n (h ++ post) = true := by
  induction n generalizing h with
  | nil => exact nil_isPrefixOf _
  | cons c cs ih =>
    cases h with
    | nil => simp [List.isPrefixOf] at hp
    | cons d ds =>
      simp only [List.isPrefixOf, Bool.and_eq_true, beq_iff_eq] at hp
      simp only [List.cons_append, List.isPrefixOf, Bool.and_eq_true, beq_iff_eq]
      exact ⟨hp.1, ih hp.2⟩

lemma hasInfix_of_isPrefixOf {n h : Str} (hp : List.isPrefixOf n h = true) :
    hasInfix n h = true := by
  cases h with
  | nil => exact hp
  | cons c rest => simp [hasInfix, hp]

lemma hasInfix_refl (l : Str) : hasInfix l l = true :=
  hasInfix_of_isPrefixOf (isPrefixOf_refl l)

lemma hasInfix_append_left {n h : Str} (pre : Str) (hi : hasInfix n h = true) :
    hasInfix n (pre ++ h) = true := by
  induction pre with
  | nil => exact hi
  | cons c cs ih => simp [hasInfix, ih]

lemma hasInfix_append_right {n h : Str} (post : Str) (hi : hasInfix n h = true) :
    hasInfix n (h ++ post) = true := by
  induction h with
  | nil =>
    have : n = [] := by
      cases n with
      | nil => rfl
      | cons c cs => simp [hasInfix, List.isPrefixOf] at hi
    subst this
    cases post with
    | nil => rfl
    | cons c cs => simp [hasInfix, List.isPrefixOf]
  | cons c rest ih =>
    simp only [hasInfix, Bool.or_eq_true] at hi
    rcases hi with hi | hi
    · simp only [List.cons_append, hasInfix, Bool.or_eq_true]
      exact Or.inl (isPrefixOf_append_right post hi)
    · simp only [List.cons_append, hasInfix, Bool.or_eq_true]
      exact Or.inr (ih hi)

lemma hasInfix_joinSep {sep : Str} {n x : Str} :
    ∀ l : List Str, x ∈ l → hasInfix n x = true → hasInfix n (joinSep sep l) = true := by
  intro l
  induction l with
  | nil => intro h; simp at h
  | cons y ys ih =>
    intro hx hi
    rcases List.mem_cons.mp hx with rfl | hx
    · cases ys with
      | nil => exact hi
      | cons z zs =>
        show hasInfix n (x ++ sep ++ joinSep sep (z :: zs)) = true
        rw [List.append_assoc]
        exact hasInfix_append_right _ hi
    · cases ys with
      | nil => simp at hx
      | cons z zs =>
        show hasInfix n (y ++ sep ++ joinSep sep (z :: zs)) = true
        rw [List.append_assoc]
        exact hasInfix_append_left _ (hasInfix_append_left _ (ih hx hi))

lemma hasInfix_pyListRepr {h : Str} {l : List Str} (hmem : h ∈ l) :
    hasInfix h (pyListRepr l) = true := by
  unfold pyListRepr
  have hq : hasInfix h (squote :: (h ++ [squote])) = true := by
    show (List.isPrefixOf h (squote :: (h ++ [squote])) || hasInfix h (h ++ [squote])) = true
    rw [Bool.or_eq_true]
    exact Or.inr (hasInfix_append_right _ (hasInfix_refl h))
  have hj : hasInfix h (joinSep (str ", ") (l.map (fun x => squote :: (x ++ [squote])))) = true :=
    hasInfix_joinSep _ (List.mem_map.mpr ⟨h, hmem, rfl⟩) hq
  show hasInfix h (['['] ++ (joinSep (str ", ") (l.map (fun x => squote :: (x ++ [squote]))) ++ [']'])) = true
  exact hasInfix_append_left _ (hasInfix_append_right _ hj)

/-- Claim C8.  When any required column role has no matching header, the run
fails: `main` exits with code 1 and writes to stderr a message that carries
every failed role name and every header of the CSV; when all four roles
match, loading proceeds and `main` exits with code 0. -/
theorem c8_exit_codes (fieldnames : List Str) (rows : List RawRow)
    (hne : fieldnames ≠ []) :
    (missingRoles (autodetect_columns fieldnames) ≠ [] →
      (mainResult fieldnames rows).1 = 1 ∧
      (mainResult fieldnames rows).2 = some (str "Error reading CSV: " ++
        loadErrorMsg (missingRoles (autodetect_columns fieldnames)) fieldnames) ∧
      (∀ role ∈ missingRoles (autodetect_columns fieldnames),
        hasInfix role ((mainResult fieldnames rows).2.getD []) = true) ∧
      (∀ h ∈ fieldnames,
        hasInfix h ((mainResult fieldnames rows).2.getD []) = true)) ∧
    (missingRoles (autodetect_columns fieldnames) = [] →
      mainResult fieldnames rows = (0, none)) := by
  constructor
  · intro hmiss
    have hmain : mainResult fieldnames rows = (1, some (str "Error reading CSV: " ++
        loadErrorMsg (missingRoles (autodetect_columns fieldnames)) fieldnames)) := by
      unfold mainResult load_sessions_checked
      rw [if_neg hne, if_pos hmiss]
    refine ⟨by rw [hmain], by rw [hmain], ?_, ?_⟩
    · intro role hrole
      rw [hmain]
      show hasInfix role (str "Error reading CSV: " ++
        loadErrorMsg (missingRoles (autodetect_columns fieldnames)) fieldnames) = true
      refine hasInfix_append_left _ ?_
      unfold loadErrorMsg
      rw [List.append_assoc, List.append_assoc]
      refine hasInfix_append_left _ ?_
      exact hasInfix_append_right _ (hasInfix_joinSep _ hrole (hasInfix_refl role))
    · intro h hh
      rw [hmain]
      show hasInfix h (str "Error reading CSV: " ++
        loadErrorMsg (missingRoles (autodetect_columns fieldnames)) fieldnames) = true
      refine hasInfix_append_left _ ?_
      unfold loadErrorMsg
      rw [List.append_assoc, List.append_assoc]
      refine hasInfix_append_left _ ?_
      refine hasInfix_append_left _ ?_
      refine hasInfix_append_left _ ?_
      exact hasInfix_pyListRepr hh
  · intro hok
    unfold mainResult load_sessions_checked
    rw [if_neg hne, if_neg (by simp [hok])]

set_option maxRecDepth 10000 in
/-- Witness for claim C8: headers `["Date", "Session Type", "Session Name"]`
lack a time column, so the run exits 1 and the message mentions the `time`
role and the header `Date`; with `["Date", "Time (MT)", "Session Type",
"Session Name"]` all roles match and the run exits 0. -/
theorem c8_exit_codes_witness :
    ((mainResult [str "Date", str "Session Type", str "Session Name"] []).1 = 1 ∧
      hasInfix (str "time")
        ((mainResult [str "Date", str "Session Type", str "Session Name"] []).2.getD [])
        = true ∧
      hasInfix (str "Date")
        ((mainResult [str "Date", str "Session Type", str "Session Name"] []).2.getD [])
        = true) ∧
    mainResult [str "Date", str "Time (MT)", str "Session Type",
      str "Session Name"] [] = (0, none) := by
  have h1 := c8_exit_codes [str "Date", str "Session Type", str "Session Name"] []
    (by decide)
  have h2 := c8_exit_codes [str "Date", str "Time (MT)", str "Session Type",
    str "Session Name"] [] (by decide)
  refine ⟨⟨(h1.1 (by decide)).1, ?_, ?_⟩, h2.2 (by decide)⟩
  · exact (h1.1 (by decide)).2.2.1 (str "time") (by decide)
  · exact (h1.1 (by decide)).2.2.2 (str "Date") (by decide)

-- ---------------------------------------------------------------------------
-- Claim C9: date inheritance across rows
-- ---------------------------------------------------------------------------

lemma load_sessions_append :
    ∀ (xs ys : List RawRow) (cur : Option PyDate),
      load_sessions cur (xs ++ ys) =
        load_sessions cur xs ++ load_sessions (List.foldl stepDate cur xs) ys := by
  intro xs
  induction xs with
  | nil => intro ys cur; simp [load_sessions]
  | cons r rest ih =>
    intro ys cur
    rw [List.cons_append, load_sessions_cons, load_sessions_cons]
    cases hrow : rowSession (stepDate cur r) r with
    | none =>
      rw [ih ys (stepDate cur r)]
      simp [List.foldl_cons]
    | some s0 =>
      rw [ih ys (stepDate cur r)]
      simp [List.foldl_cons]

lemma rowSession_date {cur : Option PyDate} {r : RawRow} {s : Session}
    (h : rowSession cur r = some s) :
    s.date_d = cur ∧ s.day_label = human_day_label_from_date cur := by
  simp only [rowSession] at h
  split_ifs at h with h1 h2 h3
  · have hs := Option.some.inj h
    rw [← hs]
    exact ⟨rfl, rfl⟩
  · have hs := Option.some.inj h
    rw [← hs]
    exact ⟨rfl, rfl⟩

lemma foldl_stepDate_none :
    ∀ pre : List RawRow,
      (∀ rr ∈ pre, trim rr.dateCell = [] ∨ parse_date (trim rr.dateCell) = none) →
      List.foldl stepDate none pre = none := by
  intro pre
  induction pre with
  | nil => intro _; rfl
  | cons r rest ih =>
    intro h
    have hr := h r (List.mem_cons_self _ _)
    have hstep : stepDate none r = none := by
      unfold stepDate
      rcases hr with hr | hr
      · rw [if_neg (by simpa using hr)]
      · by_cases hb : trim r.dateCell ≠ []
        · rw [if_pos hb]; exact hr
        · rw [if_neg hb]
    rw [List.foldl_cons, hstep]
    exact ih (fun rr hrr => h rr (List.mem_cons_of_mem _ hrr))

/-- Claim C9.  Date inheritance during loading: the loader is equivalent to
folding `stepDate` over the preceding rows (decomposition lemma); a session
built from a row carries the running date and the day label derived from it;
a blank date cell keeps the running date, a non-blank one replaces it with
its parse result (so an unparseable non-blank cell resets it to `none`); and
if no earlier row has a non-blank parseable date the running date is `none`,
whose day label is the empty string. -/
theorem c9_date_inheritance :
    (∀ (pre : List RawRow) (r : RawRow) (post : List RawRow),
      load_sessions none (pre ++ r :: post) =
        load_sessions none pre ++
          load_sessions (List.foldl stepDate none pre) (r :: post)) ∧
    (∀ (cur : Option PyDate) (r : RawRow) (s : Session),
      rowSession cur r = some s →
      s.date_d = cur ∧ s.day_label = human_day_label_from_date cur) ∧
    (∀ (cur : Option PyDate) (r : RawRow), trim r.dateCell = [] →
      stepDate cur r = cur) ∧
    (∀ (cur : Option PyDate) (r : RawRow), trim r.dateCell ≠ [] →
      stepDate cur r = parse_date (trim r.dateCell)) ∧
    (∀ pre : List RawRow,
      (∀ rr ∈ pre, trim rr.dateCell = [] ∨ parse_date (trim rr.dateCell) = none) →
      List.foldl stepDate none pre = none) ∧
    human_day_label_from_date none = [] := by
  refine ⟨?_, ?_, ?_, ?_, foldl_stepDate_none, rfl⟩
  · intro pre r post
    exact load_sessions_append pre (r :: post) none
  · intro cur r s h
    exact rowSession_date h
  · intro cur r h
    unfold stepDate
    rw [if_neg (by simpa using h)]
  · intro cur r h
    unfold stepDate
    rw [if_pos h]

/-- Concrete rows for the claim C9 witness: an unparseable non-blank date
followed by a blank-date session row. -/
def c9preRow : RawRow := ⟨str "soon", str "9:00", str "Registration", []⟩

def c9row : RawRow := ⟨[], str "10:00", str "Lunch", []⟩

def c9sess : Session := ⟨none, [], some (10, 0), none, str "Lunch", [], []⟩

set_option maxRecDepth 100000 in
/-- Witness for claim C9: after a row whose date cell is non-blank but
unparseable, a blank-date row inherits `none` and gets an empty day label. -/
theorem c9_date_inheritance_witness :
    List.foldl stepDate none [c9preRow] = none ∧
    c9sess.date_d = none ∧ c9sess.day_label = human_day_label_from_date none ∧
    load_sessions none ([c9preRow] ++ c9row :: []) =
      load_sessions none [c9preRow] ++
        load_sessions (List.foldl stepDate none [c9preRow]) (c9row :: []) := by
  have h := c9_date_inheritance
  refine ⟨h.2.2.2.2.1 [c9preRow] ?_, ?_, ?_, h.1 [c9preRow] c9row []⟩
  · intro rr hrr
    simp only [List.mem_singleton] at hrr
    subst hrr
    exact Or.inr (by decide)
  · exact (h.2.1 none c9row c9sess (by decide)).1
  · exact (h.2.1 none c9row c9sess (by decide)).2

-- ---------------------------------------------------------------------------
-- Claim C3 (amended): the token generator inherits the right-hand meridiem,
-- the normalizer does not
-- ---------------------------------------------------------------------------

lemma length_trim_le (s : Str) : (trim s).length ≤ (s.dropWhile isWs).length := by
  unfold trim
  rw [List.length_reverse]
  calc ((s.dropWhile isWs).reverse.dropWhile isWs).length
      ≤ (s.dropWhile isWs).reverse.length :=
        (List.dropWhile_sublist isWs).length_le
    _ = (s.dropWhile isWs).length := List.length_reverse _

lemma trim_self_headSat {l : Str} (h : trim l = l) :
    headSat (fun c => ! isWs c) l = true := by
  cases l with
  | nil => rfl
  | cons c cs =>
    show (! isWs c) = true
    by_cases hw : isWs c
    · exfalso
      have hlen := length_trim_le (c :: cs)
      rw [h] at hlen
      rw [List.dropWhile_cons_of_pos hw] at hlen
      have := (List.dropWhile_sublist (l := cs) isWs).length_le
      simp only [List.length_cons] at hlen
      omega
    · simp [hw]

lemma trim_self_lastSat {l : Str} (h : trim l = l) :
    lastSat (fun c => ! isWs c) l = true := by
  unfold lastSat
  have : l.reverse = (l.dropWhile isWs).reverse.dropWhile isWs := by
    conv_lhs => rw [← h]
    unfold trim
    rw [List.reverse_reverse]
  rw [this]
  exact headSat_dropWhile isWs _

lemma trim_append_dash {l r : Str} (hl : trim l = l) (hr : trim r = r)
    (hlne : l ≠ []) (hrne : r ≠ []) : trim (l ++ '-' :: r) = l ++ '-' :: r := by
  have hhead := trim_self_headSat hl
  have hlast := trim_self_lastSat hr
  unfold trim
  have h1 : (l ++ '-' :: r).dropWhile isWs = l ++ '-' :: r := by
    cases l with
    | nil => exact absurd rfl hlne
    | cons c cs =>
      have hh2 : (! isWs c) = true := hhead
      simp only [List.cons_append]
      rw [List.dropWhile_cons_of_neg (by simp at hh2 ⊢; exact hh2)]
  rw [h1]
  have h2 : (l ++ '-' :: r).reverse.dropWhile isWs = (l ++ '-' :: r).reverse := by
    rw [List.reverse_append, List.reverse_cons]
    cases hrev : r.reverse with
    | nil => exact absurd (by simpa using hrev) hrne
    | cons d ds =>
      have hd : isWs d = false := by
        have hl2 := hlast
        unfold lastSat at hl2
        rw [hrev] at hl2
        have hh2 : (! isWs d) = true := hl2
        simp at hh2
        exact hh2
      simp only [List.cons_append, List.append_assoc]
      rw [List.dropWhile_cons_of_neg (by simp [hd])]
  rw [h2, List.reverse_reverse]

lemma splitOnDashChars_ne_nil (s : Str) : splitOnDashChars s ≠ [] := by
  cases s with
  | nil => simp [splitOnDashChars]
  | cons c rest =>
    unfold splitOnDashChars
    by_cases h : isDash c
    · simp [h]
    · simp only [h, Bool.false_eq_true, if_false]
      cases hrec : splitOnDashChars rest with
      | nil => simp
      | cons t ts => simp

lemma splitOnDashChars_no_dash {b : Str} (h : ∀ c ∈ b, isDash c = false) :
    splitOnDashChars b = [b] := by
  induction b with
  | nil => rfl
  | cons c rest ih =>
    unfold splitOnDashChars
    rw [if_neg (by simp [h c (List.mem_cons_self _ _)])]
    rw [ih (fun x hx => h x (List.mem_cons_of_mem _ hx))]

lemma splitOnDashChars_cons (c : Char) (rest : Str) :
    splitOnDashChars (c :: rest) =
      (if isDash c then [] :: splitOnDashChars rest
       else
         match splitOnDashChars rest with
         | t :: ts => (c :: t) :: ts
         | [] => [[c]]) := rfl

lemma splitOnDashChars_append {a : Str} (b : Str)
    (h : ∀ c ∈ a, isDash c = false) :
    splitOnDashChars (a ++ '-' :: b) = a :: splitOnDashChars b := by
  induction a with
  | nil =>
    simp only [List.nil_append]
    rw [splitOnDashChars_cons, if_pos (by decide)]
  | cons c cs ih =>
    simp only [List.cons_append]
    rw [splitOnDashChars_cons, if_neg (by simp [h c (List.mem_cons_self _ _)])]
    rw [ih (fun x hx => h x (List.mem_cons_of_mem _ hx))]

lemma takeWhile_append_dash {a : Str} (b : Str) (h : ∀ c ∈ a, isDash c = false) :
    (a ++ '-' :: b).takeWhile (· ≠ '-') = a ∧
      (a ++ '-' :: b).dropWhile (· ≠ '-') = '-' :: b := by
  induction a with
  | nil =>
    simp only [List.nil_append]
    constructor
    · rw [List.takeWhile_cons_of_neg (by simp)]
    · rw [List.dropWhile_cons_of_neg (by simp)]
  | cons c cs ih =>
    have hc : c ≠ '-' := by
      have := h c (List.mem_cons_self _ _)
      unfold isDash at this
      intro he
      rw [he] at this
      simp at this
    obtain ⟨iht, ihd⟩ := ih (fun x hx => h x (List.mem_cons_of_mem _ hx))
    constructor
    · simp only [List.cons_append]
      rw [List.takeWhile_cons_of_pos (by simpa using hc), iht]
    · simp only [List.cons_append]
      rw [List.dropWhile_cons_of_pos (by simpa using hc), ihd]

lemma no_endash_map_id {s : Str} (h : ∀ c ∈ s, c ≠ '–' ∧ c ≠ '—') :
    s.map (fun c => if c = '–' ∨ c = '—' then '-' else c) = s := by
  conv_rhs => rw [← List.map_id s]
  refine List.map_congr_left ?_
  intro c hc
  rw [if_neg (not_or.mpr ⟨(h c hc).1, (h c hc).2⟩)]
  rfl

lemma upper_ne_TBD_of_dash {s : Str} (h : '-' ∈ s) : upperStr s ≠ str "TBD" := by
  intro he
  have hmem : Char.toUpper '-' ∈ upperStr s := List.mem_map.mpr ⟨'-', h, rfl⟩
  rw [he] at hmem
  have : '-' ∈ str "TBD" := by simpa using hmem
  simp [str] at this

/-- Claim C3 (amended).  For a two-sided time string whose right side has an
AM/PM word and whose left side has none: the anchor-token generator
`time_range_token_from_display` inherits the meridiem — its start token is
computed from the left side with the matched group appended — while the time
normalizer `parse_time_range` parses the left side on its own, with no
inheritance. -/
theorem c3_meridiem_inheritance_amended (l r g : Str)
    (hl : trim l = l) (hr : trim r = r) (hlne : l ≠ []) (hrne : r ≠ [])
    (hld : ∀ c ∈ l, isDash c = false) (hrd : ∀ c ∈ r, isDash c = false)
    (hg : reSearchAmPm r = some g) (hgl : reSearchAmPm l = none) :
    inheritedStart l r = l ++ ' ' :: g ∧
    time_range_token_from_display (l ++ '-' :: r) =
      (match _parse_single_time_to_24h_token (l ++ ' ' :: g),
             _parse_single_time_to_24h_token r with
       | some a, some b => a ++ '-' :: b
       | _, _ => slugify_ascii (l ++ '-' :: r)) ∧
    parse_time_range (l ++ '-' :: r) =
      (parse_time_piece (_normalize_meridiem l),
       parse_time_piece (_normalize_meridiem r)) := by
  have hinh : inheritedStart l r = l ++ ' ' :: g := by
    unfold inheritedStart
    rw [hg, hgl]
  have hdashmem : '-' ∈ l ++ '-' :: r :=
    List.mem_append_right _ (List.mem_cons_self _ _)
  have htrim := trim_append_dash hl hr hlne hrne
  have hne : l ++ '-' :: r ≠ [] := by simp
  have htbd := upper_ne_TBD_of_dash hdashmem
  refine ⟨hinh, ?_, ?_⟩
  · simp only [time_range_token_from_display, htrim, if_neg hne, if_neg htbd,
      splitOnDashChars_append r hld, splitOnDashChars_no_dash hrd,
      List.map_cons, List.map_nil, hl, hr, hinh]
  · have hnoendash : ∀ c ∈ l ++ '-' :: r, c ≠ '–' ∧ c ≠ '—' := by
      intro c hc
      rcases List.mem_append.mp hc with hc | hc
      · have := hld c hc
        unfold isDash at this
        simp only [Bool.decide_or, Bool.or_eq_false_iff,
          decide_eq_false_iff_not] at this
        exact ⟨this.2.1, this.2.2⟩
      · rcases List.mem_cons.mp hc with rfl | hc
        · exact ⟨by decide, by decide⟩
        · have := hrd c hc
          unfold isDash at this
          simp only [Bool.decide_or, Bool.or_eq_false_iff,
            decide_eq_false_iff_not] at this
          exact ⟨this.2.1, this.2.2⟩
    have hlnd : ∀ c ∈ l, c ≠ '-' := by
      intro c hc he
      have := hld c hc
      rw [he] at this
      simp [isDash] at this
    obtain ⟨htake, hdrop⟩ := takeWhile_append_dash (a := l) r hld
    simp only [parse_time_range, htrim, if_neg (not_or.mpr ⟨hne, htbd⟩),
      no_endash_map_id hnoendash, if_pos hdashmem, htake, hdrop, List.tail_cons]

set_option maxRecDepth 100000 in
/-- Witness for the amended claim C3 at `1:00-2:30 PM`. -/
theorem c3_meridiem_inheritance_amended_witness :
    inheritedStart (str "1:00") (str "2:30 PM") = str "1:00" ++ ' ' :: str "PM" ∧
    time_range_token_from_display (str "1:00" ++ '-' :: str "2:30 PM") =
      (match _parse_single_time_to_24h_token (str "1:00" ++ ' ' :: str "PM"),
             _parse_single_time_to_24h_token (str "2:30 PM") with
       | some a, some b => a ++ '-' :: b
       | _, _ => slugify_ascii (str "1:00" ++ '-' :: str "2:30 PM")) ∧
    parse_time_range (str "1:00" ++ '-' :: str "2:30 PM") =
      (parse_time_piece (_normalize_meridiem (str "1:00")),
       parse_time_piece (_normalize_meridiem (str "2:30 PM"))) :=
  c3_meridiem_inheritance_amended (str "1:00") (str "2:30 PM") (str "PM")
    (by decide) (by decide) (by decide) (by decide) (by decide) (by decide)
    (by decide) (by decide)

-- ---------------------------------------------------------------------------
-- Claim C4 (amended): pass structure of column autodetection
-- ---------------------------------------------------------------------------

lemma passOver_some {fnl : List (Str × Str)} {test : Str → Str → Bool} :
    ∀ {cands : List Str} {v : Str}, passOver fnl test cands = some v →
      ∃ e ∈ fnl, e.2 = v ∧ ∃ c ∈ cands, test c e.1 = true := by
  intro cands
  induction cands with
  | nil => intro v h; simp [passOver] at h
  | cons c more ih =>
    intro v h
    unfold passOver at h
    cases hf : (fnl.find? (fun e => test c e.1)).map (fun e => e.2) with
    | some w =>
      rw [hf] at h
      have hv : w = v := by simpa using h
      subst hv
      rw [Option.map_eq_some'] at hf
      obtain ⟨e, he, rfl⟩ := hf
      have ht : test c e.1 = true := by
        have := List.find?_some he
        simpa using this
      exact ⟨e, List.mem_of_find?_eq_some he, rfl, c, List.mem_cons_self _ _, ht⟩
    | none =>
      rw [hf] at h
      obtain ⟨e, he, hv, c2, hc2, ht⟩ := ih h
      exact ⟨e, he, hv, c2, List.mem_cons_of_mem _ hc2, ht⟩

/-- Claim C4 (amended).  Column autodetection runs a single
exact-or-prefix pass over all candidates (candidate priority first, then
header dict order) and only when that pass finds nothing does it run a
substring pass; in particular the first candidate's first prefix-matching
header is chosen even when another header matches exactly, and every
detected header matched its candidate by prefix (or, failing that pass, by
substring). -/
theorem c4_autodetect_priority_amended :
    (∀ (fnl : List (Str × Str)) (cands : List Str) (v : Str),
      passOver fnl (fun c k => k = c ∨ List.isPrefixOf c k) cands = some v →
        find_key fnl cands = some v) ∧
    (∀ (fnl : List (Str × Str)) (cands : List Str),
      passOver fnl (fun c k => k = c ∨ List.isPrefixOf c k) cands = none →
        find_key fnl cands = passOver fnl (fun c k => hasInfix c k) cands) ∧
    (∀ (fnl : List (Str × Str)) (c : Str) (rest : List Str) (e : Str × Str),
      fnl.find? (fun p => p.1 = c ∨ List.isPrefixOf c p.1) = some e →
        find_key fnl (c :: rest) = some e.2) ∧
    (∀ (fnl : List (Str × Str)) (cands : List Str) (v : Str),
      find_key fnl cands = some v →
      ∃ e ∈ fnl, e.2 = v ∧ ∃ c ∈ cands,
        ((decide (e.1 = c ∨ List.isPrefixOf c e.1 = true)) = true ∨
          hasInfix c e.1 = true)) := by
  refine ⟨?_, ?_, ?_, ?_⟩
  · intro fnl cands v h
    unfold find_key
    rw [h]
  · intro fnl cands h
    unfold find_key
    rw [h]
  · intro fnl c rest e h
    unfold find_key passOver
    rw [h]
    rfl
  · intro fnl cands v h
    unfold find_key at h
    cases hp : passOver fnl (fun c k => k = c ∨ List.isPrefixOf c k) cands with
    | some w =>
      rw [hp] at h
      have hv : w = v := by simpa using h
      subst hv
      obtain ⟨e, he, hev, c, hc, ht⟩ := passOver_some hp
      refine ⟨e, he, hev, c, hc, Or.inl ?_⟩
      simp only [decide_eq_true_eq]
      rcases (by simpa using ht : e.1 = c ∨ List.isPrefixOf c e.1 = true) with h1 | h1
      · exact Or.inl h1
      · exact Or.inr h1
    | none =>
      rw [hp] at h
      obtain ⟨e, he, hev, c, hc, ht⟩ := passOver_some h
      exact ⟨e, he, hev, c, hc, Or.inr ht⟩

set_option maxRecDepth 10000 in
/-- Witness for the amended claim C4: on the counterexample headers the
prefix pass itself resolves the time role to `Time (MT)`. -/
theorem c4_autodetect_priority_amended_witness :
    find_key (fnLower [str "Time (MT)", str "Time", str "Date",
        str "Session Type", str "Session Name"]) LIKELY_TIME_KEYS =
      some (str "Time (MT)") := by
  have h := c4_autodetect_priority_amended
  exact h.2.2.1 (fnLower [str "Time (MT)", str "Time", str "Date",
      str "Session Type", str "Session Name"]) (str "time") [str "time (mt)"]
    (str "time (mt)", str "Time (MT)") (by decide)
